import Mathlib

/-!
Verification of the algorithmic core of the go-ddddocr repository
(src/ddddocr/ddddocr.go) against its natural-language specification.

The Go code is embedded shallowly:
* `float32`/`float64` scores become exact rationals (`ℚ`); every comparison
  the code performs on finite floats is exact, so comparisons agree with the
  rational model.  The literal sentinel `-1e9` is exactly representable in
  `float32` and is kept literally.
* Go `int` values that are used as sizes and indices become `Nat`; values
  that can go negative (`lastIdx`, box corners) become `Int`.
* Conversion `int(x)` of a float to an integer truncates toward zero and is
  modelled by `ratTrunc`.
* Pixel samples are 8-bit channel values (`r >> 8` etc. in the source),
  modelled as `Nat` triples.
* Loops become structural recursion, with an explicit fuel argument exactly
  equal to the number of iterations the Go loop performs where needed.
-/

namespace GoDdddocr

/-- Truncation of a rational toward zero: the semantics of Go's `int(x)`
conversion applied to a (finite) floating value `x`. -/
def ratTrunc (q : ℚ) : ℤ :=
  q.num.tdiv q.den

theorem ratTrunc_eq_floor (q : ℚ) : ratTrunc q = if 0 ≤ q then ⌊q⌋ else -⌊-q⌋ := by
  unfold ratTrunc
  by_cases h : 0 ≤ q
  · rw [if_pos h, Rat.floor_def]
    exact Int.tdiv_eq_ediv (Rat.num_nonneg.2 h) (Int.ofNat_nonneg _)
  · rw [if_neg h, Rat.floor_def]
    have hnum : q.num ≤ 0 := le_of_lt (Rat.num_neg.2 (lt_of_not_le h))
    have hden : ((-q).den : ℤ) = (q.den : ℤ) := by rw [Rat.neg_den]
    have hn : (-q).num = -q.num := Rat.neg_num q
    rw [hn, hden]
    have := Int.tdiv_eq_ediv (a := -q.num) (b := (q.den : ℤ)) (by omega)
      (Int.ofNat_nonneg _)
    rw [← this, Int.neg_tdiv, neg_neg]

/-- BBox 边界框 (ddddocr.go line 250): integer box corners. -/
structure BBox where
  X1 : ℤ
  Y1 : ℤ
  X2 : ℤ
  Y2 : ℤ
  deriving DecidableEq, Repr, Inhabited

/-- computeIoU (ddddocr.go lines 1708-1723), with `float32` arithmetic
carried out exactly in `ℚ`:

    x1 := max(a.X1, b.X1); y1 := max(a.Y1, b.Y1)
    x2 := min(a.X2, b.X2); y2 := min(a.Y2, b.Y2)
    if x2 <= x1 || y2 <= y1 { return 0 }
    inter := (x2-x1)*(y2-y1)
    areaA := (a.X2-a.X1)*(a.Y2-a.Y1); areaB := (b.X2-b.X1)*(b.Y2-b.Y1)
    return inter / (areaA + areaB - inter) -/
def computeIoU (a b : BBox) : ℚ :=
  let x1 := max a.X1 b.X1
  let y1 := max a.Y1 b.Y1
  let x2 := min a.X2 b.X2
  let y2 := min a.Y2 b.Y2
  if x2 ≤ x1 ∨ y2 ≤ y1 then 0
  else
    let inter : ℚ := ((x2 - x1) * (y2 - y1) : ℤ)
    let areaA : ℚ := ((a.X2 - a.X1) * (a.Y2 - a.Y1) : ℤ)
    let areaB : ℚ := ((b.X2 - b.X1) * (b.Y2 - b.Y1) : ℤ)
    inter / (areaA + areaB - inter)

theorem computeIoU_comm (a b : BBox) : computeIoU a b = computeIoU b a := by
  simp only [computeIoU]
  rw [max_comm a.X1 b.X1, max_comm a.Y1 b.Y1, min_comm a.X2 b.X2, min_comm a.Y2 b.Y2]
  refine if_congr Iff.rfl rfl ?_
  ring

theorem ratTrunc_mono {a b : ℚ} (h : a ≤ b) : ratTrunc a ≤ ratTrunc b := by
  rw [ratTrunc_eq_floor, ratTrunc_eq_floor]
  by_cases ha : 0 ≤ a
  · rw [if_pos ha, if_pos (le_trans ha h)]
    exact Int.floor_le_floor h
  · rw [if_neg ha]
    by_cases hb : 0 ≤ b
    · rw [if_pos hb]
      have h1 : (0 : ℤ) ≤ ⌊-a⌋ := Int.le_floor.2 (by push_cast; linarith)
      have h2 : (0 : ℤ) ≤ ⌊b⌋ := Int.le_floor.2 (by push_cast; linarith)
      omega
    · rw [if_neg hb]
      have : ⌊-b⌋ ≤ ⌊-a⌋ := Int.floor_le_floor (by linarith)
      omega

/-- C5: for every pair of integer boxes, the IoU of two identical boxes with
positive area is 1; the IoU of boxes whose intersection is empty or degenerate
(in either dimension) is 0; otherwise IoU is the intersection area over
`areaA + areaB - intersection`. -/
theorem C5_computeIoU_values (a b : BBox) :
    (a = b → a.X1 < a.X2 → a.Y1 < a.Y2 → computeIoU a b = 1) ∧
    (min a.X2 b.X2 ≤ max a.X1 b.X1 ∨ min a.Y2 b.Y2 ≤ max a.Y1 b.Y1 →
      computeIoU a b = 0) ∧
    (max a.X1 b.X1 < min a.X2 b.X2 → max a.Y1 b.Y1 < min a.Y2 b.Y2 →
      computeIoU a b =
        (((min a.X2 b.X2 - max a.X1 b.X1) * (min a.Y2 b.Y2 - max a.Y1 b.Y1) : ℤ) : ℚ) /
          ((((a.X2 - a.X1) * (a.Y2 - a.Y1) : ℤ) : ℚ) + (((b.X2 - b.X1) * (b.Y2 - b.Y1) : ℤ) : ℚ)
            - (((min a.X2 b.X2 - max a.X1 b.X1) * (min a.Y2 b.Y2 - max a.Y1 b.Y1) : ℤ) : ℚ))) := by
  refine ⟨?_, ?_, ?_⟩
  · rintro rfl hx hy
    simp only [computeIoU, min_self, max_self]
    rw [if_neg (by push_neg; exact ⟨hx, hy⟩)]
    have harea : (0 : ℚ) < (((a.X2 - a.X1) * (a.Y2 - a.Y1) : ℤ) : ℚ) := by
      have : (0 : ℤ) < (a.X2 - a.X1) * (a.Y2 - a.Y1) :=
        mul_pos (by omega) (by omega)
      exact_mod_cast this
    rw [show (((a.X2 - a.X1) * (a.Y2 - a.Y1) : ℤ) : ℚ) +
        (((a.X2 - a.X1) * (a.Y2 - a.Y1) : ℤ) : ℚ) -
        (((a.X2 - a.X1) * (a.Y2 - a.Y1) : ℤ) : ℚ) =
        (((a.X2 - a.X1) * (a.Y2 - a.Y1) : ℤ) : ℚ) by ring]
    exact div_self (ne_of_gt harea)
  · intro h
    simp only [computeIoU]
    rw [if_pos h]
  · intro hx hy
    simp only [computeIoU]
    rw [if_neg (by push_neg; exact ⟨hx, hy⟩)]

/-- Witness for C5 at concrete boxes: identical 2×2 box, disjoint boxes, and a
properly overlapping pair. -/
theorem C5_computeIoU_values_witness :
    computeIoU ⟨0, 0, 2, 2⟩ ⟨0, 0, 2, 2⟩ = 1 ∧
    computeIoU ⟨0, 0, 2, 2⟩ ⟨5, 5, 7, 7⟩ = 0 ∧
    computeIoU ⟨0, 0, 2, 2⟩ ⟨1, 1, 3, 3⟩ =
      (((min (2 : ℤ) 3 - max (0 : ℤ) 1) * (min (2 : ℤ) 3 - max (0 : ℤ) 1) : ℤ) : ℚ) /
        ((((2 - 0) * (2 - 0) : ℤ) : ℚ) + (((3 - 1) * (3 - 1) : ℤ) : ℚ)
          - (((min (2 : ℤ) 3 - max (0 : ℤ) 1) * (min (2 : ℤ) 3 - max (0 : ℤ) 1) : ℤ) : ℚ)) :=
  ⟨(C5_computeIoU_values ⟨0, 0, 2, 2⟩ ⟨0, 0, 2, 2⟩).1 rfl (by decide) (by decide),
   (C5_computeIoU_values ⟨0, 0, 2, 2⟩ ⟨5, 5, 7, 7⟩).2.1 (by decide),
   (C5_computeIoU_values ⟨0, 0, 2, 2⟩ ⟨1, 1, 3, 3⟩).2.2 (by decide) (by decide)⟩

/-!
### Sequence decoder: decodeOutputFloatFast (ddddocr.go lines 1470-1522)

Scores are `ℚ`; `allowedIndices` entries are `Nat` (in the program they are
charset slice indices, hence nonnegative); `shape` entries are `Nat` (tensor
dimensions, nonnegative in any well-formed `int64` shape).  The per-timestep
arg-max scan is split into the two branches of the source's `if
len(allowedIndices) > 0`.
-/

/-- The restricted arg-max scan (loop `for _, c := range allowedIndices`):
skip `c >= numClasses`, keep `(maxIdx, maxVal)` starting from
`(0, float32(-1e9))`, update on strict `val > maxVal`. -/
def selectAllowed (output : List ℚ) (offset numClasses : Nat) (allowed : List Nat) : Nat × ℚ :=
  allowed.foldl
    (fun st c =>
      if numClasses ≤ c then st
      else if st.2 < output.getD (offset + c) 0 then (c, output.getD (offset + c) 0) else st)
    (0, -1000000000)

/-- The unrestricted arg-max scan (loop `for c := 1; c < numClasses; c++`),
starting from `(0, output[offset])`. -/
def selectAll (output : List ℚ) (offset numClasses : Nat) : Nat × ℚ :=
  (List.range (numClasses - 1)).foldl
    (fun st k =>
      if st.2 < output.getD (offset + (k + 1)) 0 then (k + 1, output.getD (offset + (k + 1)) 0)
      else st)
    (0, output.getD offset 0)

/-- One timestep of decodeOutputFloatFast: the selected `(maxIdx, maxVal)`. -/
def goSelect (output : List ℚ) (offset numClasses : Nat) (allowed : List Nat) : Nat × ℚ :=
  if 0 < allowed.length then selectAllowed output offset numClasses allowed
  else selectAll output offset numClasses

/-- The timestep loop of decodeOutputFloatFast: `steps` iterations remain,
`t` is the current timestep, `lastIdx` starts at `-1`, `acc` is the string
builder contents. -/
def decodeLoop (output : List ℚ) (batchSize numClasses charsetLen : Nat)
    (charsets : List String) (allowed : List Nat) :
    Nat → Nat → Int → String → String
  | 0, _, _, acc => acc
  | steps + 1, t, lastIdx, acc =>
    let maxIdx := (goSelect output (t * batchSize * numClasses) numClasses allowed).1
    let acc' :=
      if (maxIdx : Int) ≠ lastIdx ∧ maxIdx ≠ 0 ∧ maxIdx < charsetLen then
        acc ++ charsets.getD maxIdx ""
      else acc
    decodeLoop output batchSize numClasses charsetLen charsets allowed steps (t + 1)
      (maxIdx : Int) acc'

/-- decodeOutputFloatFast (ddddocr.go lines 1470-1522): 3-D shapes give
`(timesteps, batchSize, numClasses)`, 2-D shapes give `(timesteps, numClasses)`
with `batchSize = 1`, any other rank returns the empty string. -/
def decodeOutputFloatFast (output : List ℚ) (shape : List Nat) (charsets : List String)
    (charsetLen : Nat) (allowedIndices : List Nat) : String :=
  match shape with
  | [t, b, c] => decodeLoop output b c charsetLen charsets allowedIndices t 0 (-1) ""
  | [t, c] => decodeLoop output 1 c charsetLen charsets allowedIndices t 0 (-1) ""
  | _ => ""

/-- Spec-side collapse (spec §4.1): maintain `lastIndex` initialized to none;
emit `charset[index]` iff `index ≠ lastIndex ∧ index ≠ 0 ∧ index < len(charset)`;
always update `lastIndex := index`. -/
def collapseSpec (charsets : List String) : List Nat → Option Nat → String
  | [], _ => ""
  | i :: rest, last =>
    (if some i ≠ last ∧ i ≠ 0 ∧ i < charsets.length then charsets.getD i "" else "") ++
      collapseSpec charsets rest (some i)

/-- The per-timestep selected class indices of a `[T, C]`-shaped (or
`[T, 1, C]`-shaped) tensor. -/
def selSeq (output : List ℚ) (numClasses : Nat) (allowed : List Nat) (timesteps : Nat) :
    List Nat :=
  (List.range timesteps).map fun t => (goSelect output (t * numClasses) numClasses allowed).1

theorem decodeLoop_eq_collapseSpec (output : List ℚ) (numClasses : Nat)
    (charsets : List String) (allowed : List Nat) :
    ∀ (steps t : Nat) (lastIdx : Int) (lastO : Option Nat) (acc : String),
      (lastO = none ∧ lastIdx = -1 ∨ ∃ n : Nat, lastO = some n ∧ lastIdx = n) →
      decodeLoop output 1 numClasses charsets.length charsets allowed steps t lastIdx acc =
        acc ++ collapseSpec charsets
          ((List.range' t steps).map fun u => (goSelect output (u * numClasses) numClasses allowed).1)
          lastO := by
  intro steps
  induction steps with
  | zero => intro t lastIdx lastO acc _; simp [decodeLoop, collapseSpec]
  | succ n ih =>
    intro t lastIdx lastO acc hrel
    rw [List.range'_succ, List.map_cons]
    simp only [decodeLoop, collapseSpec]
    have hsel : t * 1 * numClasses = t * numClasses := by ring_nf
    rw [hsel]
    set m := (goSelect output (t * numClasses) numClasses allowed).1 with hm
    have hcond : ((m : Int) ≠ lastIdx ∧ m ≠ 0 ∧ m < charsets.length) ↔
        (some m ≠ lastO ∧ m ≠ 0 ∧ m < charsets.length) := by
      rcases hrel with ⟨h1, h2⟩ | ⟨k, h1, h2⟩
      · subst h1; subst h2
        simp only [ne_eq, Option.some_ne_none, not_false_eq_true, true_and]
        have : (m : Int) ≠ -1 := by omega
        simp [this]
      · subst h1; subst h2
        simp [Int.natCast_inj]
    rw [ih (t + 1) (m : Int) (some m) _ (Or.inr ⟨m, rfl, rfl⟩)]
    by_cases hc : (m : Int) ≠ lastIdx ∧ m ≠ 0 ∧ m < charsets.length
    · rw [if_pos hc, if_pos (hcond.1 hc), String.append_assoc]
    · rw [if_neg hc, if_neg (fun h => hc (hcond.2 h)), String.empty_append]

/-- C1: the sequence decoder is exactly the CTC-style collapse of the
per-timestep selected indices: `lastIndex` starts at none, `charset[index]` is
emitted iff `index ≠ lastIndex ∧ index ≠ 0 ∧ index < len(charset)`, and
`lastIndex` is always updated.  This holds for both accepted shapes
`[T, C]` and `[T, 1, C]`.  Consequently the arg-max path `[1,1,0,1]` over
charset `["", "a"]` decodes to `"aa"`, the path `[1,1,1]` decodes to `"a"`,
and index 0 is never emitted (the collapse only emits indices `≠ 0`). -/
theorem C1_decode_is_collapse :
    (∀ (output : List ℚ) (charsets : List String) (allowed : List Nat) (T C : Nat),
      decodeOutputFloatFast output [T, C] charsets charsets.length allowed =
        collapseSpec charsets (selSeq output C allowed T) none ∧
      decodeOutputFloatFast output [T, 1, C] charsets charsets.length allowed =
        collapseSpec charsets (selSeq output C allowed T) none) ∧
    decodeOutputFloatFast [0, 1, 0, 1, 1, 0, 0, 1] [4, 2] ["", "a"] 2 [] = "aa" ∧
    decodeOutputFloatFast [0, 1, 0, 1, 0, 1] [3, 2] ["", "a"] 2 [] = "a" := by
  refine ⟨?_, by decide, by decide⟩
  intro output charsets allowed T C
  constructor
  · rw [decodeOutputFloatFast, selSeq,
      decodeLoop_eq_collapseSpec output C charsets allowed T 0 (-1) none "" (Or.inl ⟨rfl, rfl⟩),
      String.empty_append, List.range'_eq_map_range]
    simp
  · show decodeLoop output 1 C charsets.length charsets allowed T 0 (-1) "" = _
    rw [selSeq,
      decodeLoop_eq_collapseSpec output C charsets allowed T 0 (-1) none "" (Or.inl ⟨rfl, rfl⟩),
      String.empty_append, List.range'_eq_map_range]
    simp

/-!
### Tie-breaking of the arg-max scan (claim C6)

Both scan branches are instances of a fold with step `argStep`; the spec-side
selection is "the first candidate in scan order whose value is greater or
equal to every candidate's value".
-/

/-- One update step of the arg-max scan: strict improvement moves the best. -/
def argStep (val : Nat → ℚ) (st : Nat × ℚ) (c : Nat) : Nat × ℚ :=
  if st.2 < val c then (c, val c) else st

/-- The arg-max fold over a candidate list. -/
def foldArg (val : Nat → ℚ) (cands : List Nat) (st0 : Nat × ℚ) : Nat × ℚ :=
  cands.foldl (argStep val) st0

/-- A candidate whose value is maximal among all candidates. -/
def isTop (val : Nat → ℚ) (cands : List Nat) (c : Nat) : Bool :=
  cands.all fun d => decide (val d ≤ val c)

/-- Spec-side selection: the first candidate in scan order attaining the
maximum value. -/
def specSelect (cands : List Nat) (val : Nat → ℚ) : Option Nat :=
  cands.find? (isTop val cands)

theorem find?_congrOn {β : Type} {g f : β → Bool} :
    ∀ (xs : List β), (∀ u ∈ xs, g u = f u) → xs.find? g = xs.find? f := by
  intro xs
  induction xs with
  | nil => intro _; rfl
  | cons b tl ih =>
    intro hgf
    rw [List.find?_cons, List.find?_cons, hgf b (by simp)]
    cases hq : f b
    · exact ih fun u hu => hgf u (by simp [hu])
    · rfl

theorem foldArg_of_all_le (val : Nat → ℚ) :
    ∀ (cands : List Nat) (i0 : Nat) (v0 : ℚ), (∀ c ∈ cands, val c ≤ v0) →
      foldArg val cands (i0, v0) = (i0, v0)
  | [], _, _, _ => rfl
  | c :: rest, i0, v0, h => by
    have hc : ¬ ((i0, v0).2 < val c) := not_lt.2 (h c (by simp))
    show foldArg val rest (argStep val (i0, v0) c) = _
    rw [argStep, if_neg hc]
    exact foldArg_of_all_le val rest i0 v0 fun d hd => h d (by simp [hd])

theorem isTop_of_all_le {val : Nat → ℚ} {cands : List Nat} {c : Nat}
    (hc : val c ≤ val c) (h : ∀ d ∈ cands, val d ≤ val c) :
    isTop val (c :: cands) c = true := by
  simp only [isTop, List.all_cons, Bool.and_eq_true, decide_eq_true_iff]
  exact ⟨hc, List.all_eq_true.2 fun d hd => by simpa using h d hd⟩

theorem isTop_false_of_lt {val : Nat → ℚ} {cands : List Nat} {c d : Nat}
    (hd : d ∈ cands) (hlt : val c < val d) :
    isTop val cands c = false := by
  simp only [isTop]
  exact List.all_eq_false.2 ⟨d, hd, by simpa using not_le.2 hlt⟩

theorem foldArg_from_first (val : Nat → ℚ) :
    ∀ (cands : List Nat) (c0 : Nat),
      some (foldArg val cands (c0, val c0)).1 =
        (c0 :: cands).find? (isTop val (c0 :: cands)) := by
  intro cands
  induction cands with
  | nil =>
    intro c0
    rw [List.find?_cons_of_pos _ (isTop_of_all_le (le_refl _) (by simp))]
    rfl
  | cons c rest ih =>
    intro c0
    have hstep : foldArg val (c :: rest) (c0, val c0) =
        foldArg val rest (argStep val (c0, val c0) c) := rfl
    by_cases h1 : val c0 < val c
    · rw [hstep, argStep, if_pos h1, ih c]
      have hc0 : ¬ isTop val (c0 :: c :: rest) c0 = true := by
        rw [isTop_false_of_lt (show c ∈ c0 :: c :: rest by simp) h1]
        simp
      rw [List.find?_cons_of_neg _ hc0]
      refine find?_congrOn (c :: rest) fun x hx => ?_
      rw [Bool.eq_iff_iff]
      simp only [isTop, List.all_cons, Bool.and_eq_true, decide_eq_true_iff,
        List.all_eq_true]
      constructor
      · rintro ⟨hc, hrest⟩
        exact ⟨le_trans (le_of_lt h1) hc, hc, hrest⟩
      · rintro ⟨_, hc, hrest⟩
        exact ⟨hc, hrest⟩
    · rw [hstep, argStep, if_neg h1, ih c0]
      have hcc0 : val c ≤ val c0 := not_lt.1 h1
      by_cases h2 : ∃ d ∈ rest, val c0 < val d
      · obtain ⟨d, hd, hvd⟩ := h2
        have hfullc0 : ¬ isTop val (c0 :: c :: rest) c0 = true := by
          rw [isTop_false_of_lt (by simp [hd]) hvd]; simp
        have hsubc0 : ¬ isTop val (c0 :: rest) c0 = true := by
          rw [isTop_false_of_lt (by simp [hd]) hvd]; simp
        have hfullc : ¬ isTop val (c0 :: c :: rest) c = true := by
          rw [isTop_false_of_lt (by simp [hd]) (lt_of_le_of_lt hcc0 hvd)]; simp
        rw [List.find?_cons_of_neg _ hsubc0, List.find?_cons_of_neg _ hfullc0,
          List.find?_cons_of_neg _ hfullc]
        refine find?_congrOn rest fun x hx => ?_
        rw [Bool.eq_iff_iff]
        simp only [isTop, List.all_cons, Bool.and_eq_true, decide_eq_true_iff,
          List.all_eq_true]
        constructor
        · rintro ⟨h0, hrest⟩
          have hdx : val d ≤ val x := by simpa using hrest d hd
          exact ⟨h0, le_trans hcc0 (le_trans (le_of_lt hvd) hdx), hrest⟩
        · rintro ⟨h0, _, hrest⟩
          exact ⟨h0, hrest⟩
      · push_neg at h2
        have hallc0 : isTop val (c0 :: rest) c0 = true :=
          isTop_of_all_le (le_refl _) h2
        have hfullc0 : isTop val (c0 :: c :: rest) c0 = true :=
          isTop_of_all_le (le_refl _) (by
            intro d hd
            rcases List.mem_cons.1 hd with rfl | hd'
            · exact hcc0
            · exact h2 d hd')
        rw [List.find?_cons_of_pos _ hallc0, List.find?_cons_of_pos _ hfullc0]

theorem foldArg_sentinel (val : Nat → ℚ) :
    ∀ (cands : List Nat) (c : Nat), c ∈ cands → -1000000000 < val c →
      some (foldArg val cands (0, -1000000000)).1 = cands.find? (isTop val cands) := by
  intro cands
  induction cands with
  | nil => intro c hc; simp at hc
  | cons a rest ih =>
    intro c hc hcv
    by_cases ha : (-1000000000 : ℚ) < val a
    · have hstep : foldArg val (a :: rest) (0, -1000000000) =
          foldArg val rest (a, val a) := by
        show foldArg val rest (argStep val (0, -1000000000) a) = _
        rw [argStep, if_pos ha]
      rw [hstep]
      exact foldArg_from_first val rest a
    · have hca : c ∈ rest := by
        rcases List.mem_cons.1 hc with rfl | h
        · exact absurd hcv ha
        · exact h
      have hstep : foldArg val (a :: rest) (0, -1000000000) =
          foldArg val rest (0, -1000000000) := by
        show foldArg val rest (argStep val (0, -1000000000) a) = _
        rw [argStep, if_neg ha]
      rw [hstep, ih c hca hcv]
      have hava : val a < val c := lt_of_le_of_lt (not_lt.1 ha) hcv
      have hatop : ¬ isTop val (a :: rest) a = true := by
        rw [isTop_false_of_lt (by simp [hca]) hava]; simp
      rw [List.find?_cons_of_neg _ hatop]
      refine find?_congrOn rest fun x hx => ?_
      rw [Bool.eq_iff_iff]
      simp only [isTop, List.all_cons, Bool.and_eq_true, decide_eq_true_iff,
        List.all_eq_true]
      constructor
      · intro hrest
        have hcx : val c ≤ val x := by simpa using hrest c hca
        exact ⟨le_trans (le_of_lt hava) hcx, hrest⟩
      · rintro ⟨hax, hrest⟩
        exact hrest

theorem foldl_filterStep {α : Type} (f : α → Nat → α) (p : Nat → Bool) :
    ∀ (l : List Nat) (init : α),
      (l.filter p).foldl f init = l.foldl (fun st c => if p c then f st c else st) init
  | [], _ => rfl
  | c :: rest, init => by
    rw [List.filter_cons]
    cases hp : p c
    · simp only [Bool.false_eq_true, if_false, List.foldl_cons, hp]
      exact foldl_filterStep f p rest init
    · simp only [if_true, List.foldl_cons, hp]
      exact foldl_filterStep f p rest (f init c)

theorem selectAllowed_eq_foldArg (output : List ℚ) (offset C : Nat) (allowed : List Nat) :
    selectAllowed output offset C allowed =
      foldArg (fun c => output.getD (offset + c) 0)
        (allowed.filter fun c => decide (c < C)) (0, -1000000000) := by
  rw [foldArg, foldl_filterStep]
  unfold selectAllowed
  congr 1
  funext st c
  by_cases h : c < C
  · have h1 : ¬ C ≤ c := not_le.2 h
    have h2 : decide (c < C) = true := by simpa using h
    simp [h1, h2, argStep]
  · have h1 : C ≤ c := not_lt.1 h
    have h2 : decide (c < C) = false := by simpa using h
    simp [h1, h2]

theorem selectAll_eq_foldArg (output : List ℚ) (offset C : Nat) :
    selectAll output offset C =
      foldArg (fun c => output.getD (offset + c) 0)
        ((List.range (C - 1)).map fun k => k + 1) (0, output.getD (offset + 0) 0) := by
  rw [foldArg, List.foldl_map]
  unfold selectAll
  rw [Nat.add_zero]
  rfl

/-- C6 (amended): in the unrestricted scan the decoder always selects the
first (lowest) class index attaining the maximum score; in the restricted
scan it selects the first index in `allowed` order attaining the maximum over
the eligible indices (`c < numClasses`), provided some eligible score
exceeds the sentinel `-1e9` the scan starts from; decoding is a pure
function of its arguments, hence deterministic. -/
theorem C6_tiebreak_first_in_scan_order :
    (∀ (output : List ℚ) (offset C : Nat), 1 ≤ C →
      some (goSelect output offset C []).1 =
        specSelect (List.range C) fun c => output.getD (offset + c) 0) ∧
    (∀ (output : List ℚ) (offset C : Nat) (allowed : List Nat),
      (∃ c ∈ allowed, c < C ∧ -1000000000 < output.getD (offset + c) 0) →
      some (goSelect output offset C allowed).1 =
        specSelect (allowed.filter fun c => decide (c < C))
          fun c => output.getD (offset + c) 0) := by
  constructor
  · intro output offset C hC
    have hC' : C = (C - 1) + 1 := by omega
    rw [goSelect, if_neg (by simp), selectAll_eq_foldArg]
    have hrange : List.range C = 0 :: ((List.range (C - 1)).map fun k => k + 1) := by
      conv_lhs => rw [hC']
      rw [List.range_succ_eq_map]
    rw [hrange]
    exact foldArg_from_first _ _ 0
  · intro output offset C allowed hex
    obtain ⟨c, hc, hcC, hcv⟩ := hex
    have hne : 0 < allowed.length := List.length_pos.2 (by rintro rfl; simp at hc)
    rw [goSelect, if_pos hne, selectAllowed_eq_foldArg]
    have hcmem : c ∈ allowed.filter fun c => decide (c < C) := by
      rw [List.mem_filter]
      exact ⟨hc, by simpa using hcC⟩
    exact foldArg_sentinel _ _ c hcmem hcv

/-- Counterexample to C6 as stated: with restriction `[0, 2, 3]` over 4
classes and scores `[-2e9, 0, -1e9, -1e9]` (all finite `float32` values), the
eligible maximum `-1e9` is attained first (in allowed order) at index 2, but
the decoder's scan starts from the sentinel `-1e9` with a strict comparison,
never updates, and selects index 0 — so nothing is emitted although the spec's
tie-break rule would emit `"b"`. -/
theorem C6_counterexample_sentinel :
    some (goSelect [(-2000000000 : ℚ), 0, -1000000000, -1000000000] 0 4 [0, 2, 3]).1 ≠
      specSelect ([0, 2, 3].filter fun c => decide (c < 4))
        (fun c => [(-2000000000 : ℚ), 0, -1000000000, -1000000000].getD (0 + c) 0) ∧
    specSelect ([0, 2, 3].filter fun c => decide (c < 4))
      (fun c => [(-2000000000 : ℚ), 0, -1000000000, -1000000000].getD (0 + c) 0) = some 2 ∧
    decodeOutputFloatFast [(-2000000000 : ℚ), 0, -1000000000, -1000000000] [1, 4]
      ["", "a", "b", "c"] 4 [0, 2, 3] = "" := by
  refine ⟨by decide, by decide, by decide⟩

/-- Witness for C6: scores `[1, 3, 3]`; unrestricted, the tie at 3 resolves to
index 1 (lowest); restricted to `[2, 1]`, it resolves to index 2 (first in
allowed order). -/
theorem C6_tiebreak_first_in_scan_order_witness :
    (1 ≤ 3 ∧ some (goSelect [(1 : ℚ), 3, 3] 0 3 []).1 =
      specSelect (List.range 3) fun c => [(1 : ℚ), 3, 3].getD (0 + c) 0) ∧
    ((∃ c ∈ [2, 1], c < 3 ∧ -1000000000 < [(1 : ℚ), 3, 3].getD (0 + c) 0) ∧
      some (goSelect [(1 : ℚ), 3, 3] 0 3 [2, 1]).1 =
        specSelect ([2, 1].filter fun c => decide (c < 3))
          fun c => [(1 : ℚ), 3, 3].getD (0 + c) 0) :=
  ⟨⟨by decide, C6_tiebreak_first_in_scan_order.1 [(1 : ℚ), 3, 3] 0 3 (by decide)⟩,
   ⟨by decide, C6_tiebreak_first_in_scan_order.2 [(1 : ℚ), 3, 3] 0 3 [2, 1] (by decide)⟩⟩

/-!
### Error handling of malformed shapes (claim C8)

The classification caller (ddddocr.go lines 727-735) returns
`decodeOutputFloatFast(...), nil`: whatever the decoder produced is paired
with a nil error.  Go's `(string, error)` result is modelled as
`Except String String`, with a nil error mapping to `Except.ok`.
-/

/-- The value/error pair the Classification caller hands back from the decode
step: always `ok`, never an error. -/
def classificationDecode (output : List ℚ) (shape : List Nat) (charsets : List String)
    (charsetLen : Nat) (allowedIndices : List Nat) : Except String String :=
  Except.ok (decodeOutputFloatFast output shape charsets charsetLen allowedIndices)

/-- Counterexample to C8 as stated: a 1-D shape is not reported as an error;
the caller receives a successful empty string (`ok ""`, i.e. a nil Go error). -/
theorem C8_counterexample_no_error :
    classificationDecode [1, 2, 3, 4] [4] ["", "a"] 2 [] = Except.ok "" := rfl

/-- C8 (amended): a shape that is neither 2-D nor 3-D makes the decoder
return the empty string, which the caller passes on with a nil error: no
partial decoded result is produced, but no error is reported either. -/
theorem C8_malformed_shape_silent (output : List ℚ) (shape : List Nat)
    (charsets : List String) (charsetLen : Nat) (allowed : List Nat)
    (h2 : shape.length ≠ 2) (h3 : shape.length ≠ 3) :
    classificationDecode output shape charsets charsetLen allowed = Except.ok "" := by
  rcases shape with _ | ⟨a, _ | ⟨b, _ | ⟨c, _ | ⟨d, rest⟩⟩⟩⟩
  · rfl
  · rfl
  · exact absurd rfl h2
  · exact absurd rfl h3
  · rfl

/-- Witness for C8 at the concrete 1-D shape `[5]`. -/
theorem C8_malformed_shape_silent_witness :
    ([5] : List Nat).length ≠ 2 ∧ ([5] : List Nat).length ≠ 3 ∧
      classificationDecode [1, 2] [5] ["", "a"] 2 [] = Except.ok "" :=
  ⟨by decide, by decide,
   C8_malformed_shape_silent [1, 2] [5] ["", "a"] 2 [] (by decide) (by decide)⟩

/-!
### SetRanges (ddddocr.go lines 571-620, claim C10)

The OCR engine state is reduced to the fields SetRanges touches: the charset,
the reverse lookup `charIndexMap`, and `allowedIndices` (a nil Go slice is
`none`).  The dynamic `interface{}` argument is the tagged sum `RangeVal`:
a string, an int, or a value of any other type.
-/

structure OcrState where
  charsets : List String
  charIndexMap : String → Option Nat
  allowedIndices : Option (List Nat)

inductive RangeVal where
  | str (chars : String)
  | intv (n : Int)
  | other

/-- Go's `strings.Split(chars, "")`: the list of single-character strings. -/
def splitChars (s : String) : List String :=
  s.toList.map fun ch => String.mk [ch]

/-- The index list built at ddddocr.go lines 611-619: a leading 0 (the blank
placeholder), then the `charIndexMap` hits of the split characters in order. -/
def buildIndices (st : OcrState) (chars : String) : OcrState :=
  { st with allowedIndices := some (0 :: (splitChars chars).filterMap st.charIndexMap) }

/-- The alphanumeric alphabet used by the `RangeNonAlphaNum` preset. -/
def alphaNumStr : String :=
  "abcdefghijklmnopqrstuvwxyzABCDEFGHIJKLMNOPQRSTUVWXYZ0123456789"

/-- The `RangeNonAlphaNum` preset: concatenate every charset entry that is
nonempty and not a substring of the alphanumeric alphabet
(`strings.Contains` is substring containment). -/
def nonAlphaNumString (charsets : List String) : String :=
  (charsets.filter fun c =>
    decide (¬ (c.toList <:+: alphaNumStr.toList) ∧ c ≠ "")).foldl (· ++ ·) ""

/-- SetRanges (ddddocr.go lines 571-620).  Presets 0-7 resolve to a character
string and build indices; an int outside the presets, or a value that is
neither string nor int, clears `allowedIndices` to nil. -/
def setRanges (st : OcrState) (v : RangeVal) : OcrState :=
  match v with
  | .str chars => buildIndices st chars
  | .intv n =>
    if n = 0 then buildIndices st "0123456789"
    else if n = 1 then buildIndices st "abcdefghijklmnopqrstuvwxyz"
    else if n = 2 then buildIndices st "ABCDEFGHIJKLMNOPQRSTUVWXYZ"
    else if n = 3 then
      buildIndices st "abcdefghijklmnopqrstuvwxyzABCDEFGHIJKLMNOPQRSTUVWXYZ"
    else if n = 4 then buildIndices st "abcdefghijklmnopqrstuvwxyz0123456789"
    else if n = 5 then buildIndices st "ABCDEFGHIJKLMNOPQRSTUVWXYZ0123456789"
    else if n = 6 then
      buildIndices st
        "abcdefghijklmnopqrstuvwxyzABCDEFGHIJKLMNOPQRSTUVWXYZ0123456789"
    else if n = 7 then buildIndices st (nonAlphaNumString st.charsets)
    else { st with allowedIndices := none }
  | .other => { st with allowedIndices := none }

/-- The `allowedIndices` slice handed to the decoder: a nil `Option` is the
empty slice (the decoder only tests `len > 0`). -/
def allowedList (o : Option (List Nat)) : List Nat := o.getD []

/-- C10: SetRanges with an int outside the presets `0..7`, or with a value of
any type other than string or int, clears any previously configured
restriction (`allowedIndices` becomes nil), and decoding with a nil
restriction performs the unrestricted scan over every class index. -/
theorem C10_setRanges_clears (st : OcrState) :
    (∀ n : Int, n < 0 ∨ 7 < n → (setRanges st (.intv n)).allowedIndices = none) ∧
    (setRanges st .other).allowedIndices = none ∧
    (∀ (output : List ℚ) (offset C : Nat),
      goSelect output offset C (allowedList none) = selectAll output offset C) := by
  refine ⟨?_, rfl, fun output offset C => rfl⟩
  intro n hn
  have h0 : ¬ n = 0 := by omega
  have h1 : ¬ n = 1 := by omega
  have h2 : ¬ n = 2 := by omega
  have h3 : ¬ n = 3 := by omega
  have h4 : ¬ n = 4 := by omega
  have h5 : ¬ n = 5 := by omega
  have h6 : ¬ n = 6 := by omega
  have h7 : ¬ n = 7 := by omega
  simp [setRanges, h0, h1, h2, h3, h4, h5, h6, h7]

/-- Witness for C10: a state with a previously configured restriction, cleared
by the out-of-range preset 99. -/
theorem C10_setRanges_clears_witness :
    ((99 : Int) < 0 ∨ (7 : Int) < 99) ∧
      (setRanges ⟨["", "a"], fun _ => none, some [0, 1]⟩ (.intv 99)).allowedIndices = none :=
  ⟨by decide, (C10_setRanges_clears ⟨["", "a"], fun _ => none, some [0, 1]⟩).1 99 (by omega)⟩

/-!
### findGapPython (ddddocr.go lines 1292-1321, claim C9)

An image is a width × height grid of 8-bit RGB samples (`r >> 8` etc. of the
source, bounds offsets folded away).  The Go scan keeps a per-column `count`
and a global `startY`, sets `startY = y` whenever a column's running count
just reached 1 while `startY` is still 0, and stops at the first column whose
count reaches `minCount`, reporting `(x + 2, startY)`; with no such column it
reports `(0, startY)`.
-/

structure Img where
  w : Nat
  h : Nat
  pix : Nat → Nat → Nat × Nat × Nat

/-- A pixel with any nonzero channel (`r8 != 0 || g8 != 0 || b8 != 0`). -/
def nonBlack (img : Img) (x y : Nat) : Bool :=
  decide ((img.pix x y).1 ≠ 0 ∨ (img.pix x y).2.1 ≠ 0 ∨ (img.pix x y).2.2 ≠ 0)

/-- The inner `for y` loop: state is `(count, startY)`. -/
def colScan (img : Img) (x : Nat) (sy0 : Nat) : Nat × Nat :=
  (List.range img.h).foldl
    (fun st y =>
      if nonBlack img x y then
        (st.1 + 1, if st.1 = 0 ∧ st.2 = 0 then y else st.2)
      else st)
    (0, sy0)

/-- The outer `for x` loop with its early `break`: the column scan result
`(count, startY)` decides between reporting `(x + 2, startY)` and moving on
with the updated `startY`. -/
def gapLoop (img : Img) (minCount : Nat) : List Nat → Nat → Nat × Nat
  | [], sy => (0, sy)
  | x :: rest, sy =>
    if minCount ≤ (colScan img x sy).1 then (x + 2, (colScan img x sy).2)
    else gapLoop img minCount rest (colScan img x sy).2

/-- findGapPython (ddddocr.go lines 1292-1321). -/
def findGapPython (img : Img) (minCount : Nat) : Nat × Nat :=
  gapLoop img minCount (List.range img.w) 0

/-- Number of non-black pixels in column `x`. -/
def colCount (img : Img) (x : Nat) : Nat :=
  ((List.range img.h).filter fun y => nonBlack img x y).length

/-- Row of the first non-black pixel of column `x`, if any. -/
def firstRow (img : Img) (x : Nat) : Option Nat :=
  (List.range img.h).find? fun y => nonBlack img x y

/-- Column `x` captures the row tracker: its first non-black pixel sits in a
nonzero row. -/
def capCol (img : Img) (x : Nat) : Bool :=
  decide ((firstRow img x).getD 0 ≠ 0)

/-- The scanned columns: everything up to and including the first column
satisfying `p` (the whole list when none does). -/
def takeThrough (p : Nat → Bool) : List Nat → List Nat
  | [] => []
  | x :: xs => if p x then [x] else x :: takeThrough p xs

/-- Spec-side gap X: first column whose non-black count reaches the threshold
gives `x + 2`, otherwise 0. -/
def specGapX (img : Img) (minCount : Nat) : Nat :=
  match (List.range img.w).find? (fun x => decide (minCount ≤ colCount img x)) with
  | some x => x + 2
  | none => 0

/-- Spec-side gap Y: among the scanned columns (up to and including the gap
column), the first whose first non-black pixel lies in a nonzero row reports
that row; otherwise 0. -/
def specGapY (img : Img) (minCount : Nat) : Nat :=
  match (takeThrough (fun x => decide (minCount ≤ colCount img x))
      (List.range img.w)).find? (capCol img) with
  | some x => (firstRow img x).getD 0
  | none => 0

theorem colScan_fold_char (img : Img) (x : Nat) :
    ∀ (ys : List Nat) (cnt sy : Nat),
      ys.foldl
        (fun st y =>
          if nonBlack img x y then
            (st.1 + 1, if st.1 = 0 ∧ st.2 = 0 then y else st.2)
          else st)
        (cnt, sy) =
      (cnt + (ys.filter fun y => nonBlack img x y).length,
        if cnt = 0 ∧ sy = 0 then ((ys.find? fun y => nonBlack img x y).getD sy)
        else sy) := by
  intro ys
  induction ys with
  | nil =>
    intro cnt sy
    simp
  | cons y ys ih =>
    intro cnt sy
    rw [List.foldl_cons, List.filter_cons, List.find?_cons]
    cases hnb : nonBlack img x y
    · simp only [Bool.false_eq_true, if_false, ih]
    · simp only [if_true]
      by_cases h : cnt = 0 ∧ sy = 0
      · obtain ⟨h1, h2⟩ := h
        subst h1; subst h2
        rw [if_pos ⟨rfl, rfl⟩, ih]
        simp only [Prod.mk.injEq, List.length_cons, Option.getD_some]
        constructor
        · ring
        · simp
      · rw [if_neg h, ih]
        have hcnt : ¬ (cnt + 1 = 0 ∧ sy = 0) := by
          rintro ⟨hc, _⟩; omega
        rw [if_neg hcnt, if_neg h]
        simp only [Prod.mk.injEq, List.length_cons]
        ring_nf
        simp [Nat.succ_eq_add_one]

theorem colScan_char0 (img : Img) (x : Nat) :
    colScan img x 0 = (colCount img x, (firstRow img x).getD 0) := by
  rw [colScan, colScan_fold_char, colCount, firstRow]
  rw [if_pos ⟨rfl, rfl⟩]
  simp

theorem colScan_charNe (img : Img) (x : Nat) {sy0 : Nat} (h : sy0 ≠ 0) :
    colScan img x sy0 = (colCount img x, sy0) := by
  rw [colScan, colScan_fold_char, colCount]
  rw [if_neg (by rintro ⟨_, h2⟩; exact h h2)]
  simp

theorem gapLoop_cons0 (img : Img) (minCount x : Nat) (rest : List Nat) :
    gapLoop img minCount (x :: rest) 0 =
      if minCount ≤ colCount img x then (x + 2, (firstRow img x).getD 0)
      else gapLoop img minCount rest ((firstRow img x).getD 0) := by
  rw [gapLoop, colScan_char0]

theorem gapLoop_consNe (img : Img) (minCount x : Nat) (rest : List Nat) {sy : Nat}
    (h : sy ≠ 0) :
    gapLoop img minCount (x :: rest) sy =
      if minCount ≤ colCount img x then (x + 2, sy)
      else gapLoop img minCount rest sy := by
  rw [gapLoop, colScan_charNe img x h]

theorem gapLoop_char (img : Img) (minCount : Nat) :
    ∀ (cols : List Nat) (sy : Nat),
      gapLoop img minCount cols sy =
        ((match cols.find? (fun x => decide (minCount ≤ colCount img x)) with
          | some x => x + 2
          | none => 0),
         (if sy ≠ 0 then sy
          else
            match (takeThrough (fun x => decide (minCount ≤ colCount img x))
                cols).find? (capCol img) with
            | some x => (firstRow img x).getD 0
            | none => 0)) := by
  intro cols
  induction cols with
  | nil =>
    intro sy
    by_cases h : sy = 0
    · subst h; simp [gapLoop, takeThrough]
    · simp [gapLoop, takeThrough, h]
  | cons x rest ih =>
    intro sy
    by_cases hsy : sy = 0
    · subst hsy
      rw [if_neg (show ¬ ((0 : Nat) ≠ 0) by simp), gapLoop_cons0]
      by_cases hthr : minCount ≤ colCount img x
      · rw [if_pos hthr, List.find?_cons_of_pos _ (by simpa using hthr)]
        have htt : takeThrough (fun x => decide (minCount ≤ colCount img x)) (x :: rest)
            = [x] := by
          rw [takeThrough, if_pos (by simpa using hthr)]
        rw [htt]
        cases hcap : capCol img x
        · have hfr : (firstRow img x).getD 0 = 0 := by simpa [capCol] using hcap
          rw [List.find?_cons_of_neg _ (by simp [hcap]), List.find?_nil, hfr]
        · rw [List.find?_cons_of_pos _ (by simp [hcap])]
      · rw [if_neg hthr, List.find?_cons_of_neg _ (by simpa using hthr)]
        have htt : takeThrough (fun x => decide (minCount ≤ colCount img x)) (x :: rest)
            = x :: takeThrough (fun x => decide (minCount ≤ colCount img x)) rest := by
          rw [takeThrough, if_neg (by simpa using hthr)]
        rw [htt, ih]
        cases hcap : capCol img x
        · have hfr : (firstRow img x).getD 0 = 0 := by simpa [capCol] using hcap
          rw [hfr, if_neg (show ¬ ((0 : Nat) ≠ 0) by simp),
            List.find?_cons_of_neg _ (by simp [hcap])]
        · have hfr : (firstRow img x).getD 0 ≠ 0 := by simpa [capCol] using hcap
          rw [if_pos hfr, List.find?_cons_of_pos _ (by simp [hcap])]
    · rw [if_pos hsy, gapLoop_consNe img minCount x rest hsy]
      by_cases hthr : minCount ≤ colCount img x
      · rw [if_pos hthr, List.find?_cons_of_pos _ (by simpa using hthr)]
      · rw [if_neg hthr, ih, if_pos hsy, List.find?_cons_of_neg _ (by simpa using hthr)]

/-- C9 (amended): the first column whose non-black count reaches `minCount`
yields gap X = column + 2, and X = 0 when no column does; the reported row is
the first non-black pixel's row of the earliest scanned column (up to and
including the gap column) whose first non-black pixel lies in a nonzero row
— a capture at row 0 leaves the tracker at 0 and a later column may overwrite
it — and 0 when no such column exists; in particular, when no column reaches
the threshold the result is `(0, capturedRow)`, not necessarily `(0, 0)`. -/
theorem C9_findGap_characterization (img : Img) (minCount : Nat) :
    findGapPython img minCount = (specGapX img minCount, specGapY img minCount) := by
  rw [findGapPython, gapLoop_char, specGapX, specGapY]
  rw [if_neg (by simp)]

/-- Counterexample to C9 as stated: a 1×2 image whose only non-black pixel is
at row 1 never reaches the threshold 5, yet the result is `(0, 1)`, not
`(0, 0)`; and a 2×2 image whose first non-black pixel in scan order is at
`(0, 0)` reports row 1 — captured from the second column, overwriting the
row-0 capture. -/
theorem C9_counterexample :
    findGapPython ⟨1, 2, fun x y => if x = 0 ∧ y = 1 then (255, 255, 255) else (0, 0, 0)⟩ 5
      = (0, 1) ∧
    findGapPython
      ⟨2, 2, fun x y =>
        if (x = 0 ∧ y = 0) ∨ (x = 1 ∧ y = 1) then (255, 255, 255) else (0, 0, 0)⟩ 5
      = (0, 1) := by
  refine ⟨by decide, by decide⟩

/-!
### softmax (ddddocr.go lines 1525-1544, claim C7)

The float arithmetic is carried out exactly over `ℚ`, with `math.Exp`
abstracted as a parameter `e` that is only assumed strictly monotone and
positive — the two properties of the exponential the claim rests on.  The
structure is the source's: find the row maximum, exponentiate the shifted
entries while accumulating their sum, then divide each entry by the sum.
-/

/-- The row-maximum loop (`maxVal := input[0]; for v in input[1:] ...`). -/
def goMax (l : List ℚ) (m0 : ℚ) : ℚ :=
  l.foldl (fun m v => if m < v then v else m) m0

/-- softmax (ddddocr.go lines 1525-1544), with `math.Exp` abstracted as `e`. -/
def softmax (e : ℚ → ℚ) (input : List ℚ) : List ℚ :=
  let maxVal := goMax input.tail (input.headD 0)
  let output := input.map fun v => e (v - maxVal)
  let sum := output.foldl (· + ·) 0
  output.map fun o => o / sum

theorem foldl_add_eq_sum (l : List ℚ) : l.foldl (· + ·) 0 = l.sum := by
  rw [List.sum_eq_foldl]

theorem sum_map_div (l : List ℚ) (s : ℚ) : (l.map fun o => o / s).sum = l.sum / s := by
  induction l with
  | nil => simp
  | cons a l ih => simp [ih, add_div]

theorem softmax_getD {e : ℚ → ℚ} {input : List ℚ} {i : Nat} (hi : i < input.length) :
    (softmax e input).getD i 0 =
      e (input.getD i 0 - goMax input.tail (input.headD 0)) /
        (input.map fun v => e (v - goMax input.tail (input.headD 0))).sum := by
  simp only [softmax, List.map_map, foldl_add_eq_sum]
  rw [List.getD_eq_getElem?_getD, List.getElem?_map, List.getD_eq_getElem?_getD,
    List.getElem?_eq_getElem hi]
  simp

/-- C7: for every nonempty row, softmax — which subtracts the row maximum
before applying the (strictly monotone, positive) exponential and normalizes
by the accumulated sum — produces a row whose sum is 1 up to the `1e-5`
tolerance (here: exactly 1), and whose first arg-max index is the first
arg-max index of the input row. -/
theorem C7_softmax_sum_and_argmax (e : ℚ → ℚ) (input : List ℚ)
    (hne : input ≠ []) (hmono : StrictMono e) (hpos : ∀ x, 0 < e x) :
    |((softmax e input).foldl (· + ·) 0) - 1| ≤ 1 / 100000 ∧
    specSelect (List.range input.length) (fun i => (softmax e input).getD i 0) =
      specSelect (List.range input.length) (fun i => input.getD i 0) := by
  have hS : 0 < (input.map fun v => e (v - goMax input.tail (input.headD 0))).sum := by
    refine List.sum_pos _ (fun x hx => ?_) (by simpa using hne)
    obtain ⟨v, _, rfl⟩ := List.mem_map.1 hx
    exact hpos _
  constructor
  · rw [softmax, foldl_add_eq_sum, sum_map_div, foldl_add_eq_sum]
    rw [div_self (ne_of_gt hS)]
    simp
  · refine find?_congrOn _ fun i hi => ?_
    have hi' : i < input.length := by simpa using hi
    rw [Bool.eq_iff_iff]
    simp only [isTop, List.all_eq_true, decide_eq_true_iff]
    constructor
    · intro h j hj
      have hj' : j < input.length := by simpa using hj
      have := h j hj
      rw [softmax_getD hi', softmax_getD hj', div_le_div_right hS,
        hmono.le_iff_le] at this
      simpa using this
    · intro h j hj
      have hj' : j < input.length := by simpa using hj
      have := h j hj
      rw [softmax_getD hi', softmax_getD hj', div_le_div_right hS,
        hmono.le_iff_le]
      simpa using this

/-- A concrete strictly monotone positive rational function standing in for
the exponential in the witness. -/
def expStandIn (q : ℚ) : ℚ := q / (1 + |q|) + 1

theorem expStandIn_strictMono : StrictMono expStandIn := by
  intro a b hab
  unfold expStandIn
  have ha : (0 : ℚ) < 1 + |a| := by positivity
  have hb : (0 : ℚ) < 1 + |b| := by positivity
  have key : a * (1 + |b|) < b * (1 + |a|) := by
    rcases le_or_lt 0 a with h0a | h0a
    · have h0b : 0 < b := lt_of_le_of_lt h0a hab
      rw [abs_of_nonneg h0a, abs_of_pos h0b]
      nlinarith
    · rcases le_or_lt 0 b with h0b | h0b
      · have hL : a * (1 + |b|) < 0 := mul_neg_of_neg_of_pos h0a (by positivity)
        have hR : 0 ≤ b * (1 + |a|) := mul_nonneg h0b (by positivity)
        linarith
      · rw [abs_of_neg h0a, abs_of_neg h0b]
        nlinarith
  have : a / (1 + |a|) < b / (1 + |b|) := (div_lt_div_iff ha hb).2 key
  linarith

theorem expStandIn_pos (q : ℚ) : 0 < expStandIn q := by
  unfold expStandIn
  have hq : (0 : ℚ) < 1 + |q| := by positivity
  have h1 : -q < 1 + |q| := lt_of_le_of_lt (neg_le_abs q) (by linarith)
  have : -1 < q / (1 + |q|) := by
    rw [neg_lt, ← neg_div]
    rw [div_lt_one hq]
    exact h1
  linarith

/-- Witness for C7 at the concrete row `[0, 1]` with the stand-in
exponential. -/
theorem C7_softmax_sum_and_argmax_witness :
    ([(0 : ℚ), 1] ≠ []) ∧
    (|((softmax expStandIn [(0 : ℚ), 1]).foldl (· + ·) 0) - 1| ≤ 1 / 100000 ∧
      specSelect (List.range ([(0 : ℚ), 1]).length)
          (fun i => (softmax expStandIn [(0 : ℚ), 1]).getD i 0) =
        specSelect (List.range ([(0 : ℚ), 1]).length)
          (fun i => [(0 : ℚ), 1].getD i 0)) :=
  ⟨by decide,
   C7_softmax_sum_and_argmax expStandIn [(0 : ℚ), 1] (by decide)
     expStandIn_strictMono expStandIn_pos⟩

/-!
### Go sort.Slice (claim C2)

multiclassNMS sorts its detections with Go's `sort.Slice`, which the Go
standard library implements as pdqsort (`sort/zsortfunc.go`, Go 1.19+) and
documents as NOT stable.  The slice is modelled as a `List` indexed by
`lget`/`lswap`; every loop gets fuel that is an upper bound on its iteration
count, so the model computes exactly the library's result.
-/

/-- Indexed read of a Go slice (`arr[i]`); all modelled reads are in
bounds. -/
def lget {α : Type} [Inhabited α] (l : List α) (i : Nat) : α := l.getD i default

/-- `data.Swap(i, j)` on a Go slice; all modelled swaps are in bounds. -/
def lswap {α : Type} [Inhabited α] (l : List α) (i j : Nat) : List α :=
  (l.set i (lget l j)).set j (lget l i)

/-- insertionSortFunc inner loop:
`for j := i; j > a && less(arr[j], arr[j-1]); j--: swap(j, j-1)`. -/
def isortInner {α : Type} [Inhabited α] (less : α → α → Bool) (a : Nat) :
    List α → Nat → List α
  | arr, 0 => arr
  | arr, j + 1 =>
    if a < j + 1 ∧ less (lget arr (j + 1)) (lget arr j) then
      isortInner less a (lswap arr (j + 1) j) j
    else arr

/-- insertionSortFunc outer loop: `for i := a + 1; i < b; i++`. -/
def isortOuter {α : Type} [Inhabited α] (less : α → α → Bool) (a b : Nat) :
    Nat → List α → Nat → List α
  | 0, arr, _ => arr
  | fuel + 1, arr, i =>
    if i < b then isortOuter less a b fuel (isortInner less a arr i) (i + 1)
    else arr

/-- insertionSortFunc. -/
def goInsertionSort {α : Type} [Inhabited α] (less : α → α → Bool) (arr : List α)
    (a b : Nat) : List α :=
  isortOuter less a b b arr (a + 1)

/-- siftDownFunc: the binary-heap sift loop. -/
def siftDown {α : Type} [Inhabited α] (less : α → α → Bool) (hi first : Nat) :
    Nat → List α → Nat → List α
  | 0, arr, _ => arr
  | fuel + 1, arr, root =>
    if 2 * root + 1 ≥ hi then arr
    else
      let child :=
        if 2 * root + 2 < hi ∧
            less (lget arr (first + (2 * root + 1))) (lget arr (first + (2 * root + 2))) then
          2 * root + 2
        else 2 * root + 1
      if ¬ less (lget arr (first + root)) (lget arr (first + child)) then arr
      else siftDown less hi first fuel (lswap arr (first + root) (first + child)) child

/-- heapSortFunc first loop: build the heap, `i` from `(hi-1)/2` down to 0. -/
def heapInit {α : Type} [Inhabited α] (less : α → α → Bool) (hi first : Nat) :
    Nat → List α → List α
  | 0, arr => arr
  | n + 1, arr => heapInit less hi first n (siftDown less hi first (hi + 1) arr n)

/-- heapSortFunc second loop: pop the maximum, `i` from `hi-1` down to 0. -/
def heapExtract {α : Type} [Inhabited α] (less : α → α → Bool) (first : Nat) :
    Nat → List α → List α
  | 0, arr => arr
  | n + 1, arr =>
    heapExtract less first n (siftDown less n first (n + 1) (lswap arr first (first + n)) 0)

/-- heapSortFunc. -/
def goHeapSort {α : Type} [Inhabited α] (less : α → α → Bool) (arr : List α)
    (a b : Nat) : List α :=
  heapExtract less a (b - a) (heapInit less (b - a) a ((b - a - 1) / 2 + 1) arr)

/-- One step of the xorshift generator used by breakPatterns, on `uint64`. -/
def xorshiftNext (r : Nat) : Nat :=
  let r1 := (r ^^^ (r <<< 13)) % 18446744073709551616
  let r2 := r1 ^^^ (r1 >>> 17)
  (r2 ^^^ (r2 <<< 5)) % 18446744073709551616

/-- `bits.Len` for `uint`: position of the highest set bit. -/
def goBitsLen (n : Nat) : Nat :=
  if n = 0 then 0 else Nat.log2 n + 1

/-- nextPowerOfTwo: `1 << bits.Len(uint(length))`. -/
def nextPowerOfTwo (length : Nat) : Nat := 1 <<< goBitsLen length

/-- breakPatternsFunc: three pseudo-random swaps around the middle when the
interval has at least 8 elements. -/
def breakPatterns {α : Type} [Inhabited α] (arr : List α) (a b : Nat) : List α :=
  let length := b - a
  if length ≥ 8 then
    let modulus := nextPowerOfTwo length
    let idx := a + (length / 4) * 2 - 1
    let r1 := xorshiftNext length
    let o1 := let o := r1 &&& (modulus - 1); if o ≥ length then o - length else o
    let arr1 := lswap arr (idx - 1) (a + o1)
    let r2 := xorshiftNext r1
    let o2 := let o := r2 &&& (modulus - 1); if o ≥ length then o - length else o
    let arr2 := lswap arr1 (idx - 1 + 1) (a + o2)
    let r3 := xorshiftNext r2
    let o3 := let o := r3 &&& (modulus - 1); if o ≥ length then o - length else o
    lswap arr2 (idx - 1 + 2) (a + o3)
  else arr

inductive SortedHint where
  | increasing
  | decreasing
  | unknown
  deriving DecidableEq, Repr

/-- order2Func: order two indices by their elements, counting swaps. -/
def order2 {α : Type} [Inhabited α] (less : α → α → Bool) (arr : List α)
    (a b swaps : Nat) : Nat × Nat × Nat :=
  if less (lget arr b) (lget arr a) then (b, a, swaps + 1) else (a, b, swaps)

/-- medianFunc: index of the median of three elements, counting swaps. -/
def medianOf {α : Type} [Inhabited α] (less : α → α → Bool) (arr : List α)
    (a b c swaps : Nat) : Nat × Nat :=
  let r1 := order2 less arr a b swaps
  let r2 := order2 less arr r1.2.1 c r1.2.2
  let r3 := order2 less arr r1.1 r2.1 r2.2.2
  (r3.2.1, r3.2.2)

/-- medianAdjacentFunc: median of `arr[a-1], arr[a], arr[a+1]`. -/
def medianAdjacent {α : Type} [Inhabited α] (less : α → α → Bool) (arr : List α)
    (a swaps : Nat) : Nat × Nat :=
  medianOf less arr (a - 1) a (a + 1) swaps

/-- choosePivotFunc: ninther for long intervals, median of three for medium
ones, the middle for short ones; the swap count classifies sortedness. -/
def choosePivot {α : Type} [Inhabited α] (less : α → α → Bool) (arr : List α)
    (a b : Nat) : Nat × SortedHint :=
  let l := b - a
  let i0 := a + (l / 4) * 1
  let j0 := a + (l / 4) * 2
  let k0 := a + (l / 4) * 3
  if l ≥ 8 then
    let m :=
      if l ≥ 50 then
        let mi := medianAdjacent less arr i0 0
        let mj := medianAdjacent less arr j0 mi.2
        let mk := medianAdjacent less arr k0 mj.2
        medianOf less arr mi.1 mj.1 mk.1 mk.2
      else medianOf less arr i0 j0 k0 0
    (m.1,
      if m.2 = 0 then SortedHint.increasing
      else if m.2 = 12 then SortedHint.decreasing
      else SortedHint.unknown)
  else (j0, SortedHint.increasing)

/-- reverseRangeFunc. -/
def revRangeLoop {α : Type} [Inhabited α] : Nat → List α → Nat → Nat → List α
  | 0, arr, _, _ => arr
  | fuel + 1, arr, i, j =>
    if i < j then revRangeLoop fuel (lswap arr i j) (i + 1) (j - 1) else arr

def reverseRange {α : Type} [Inhabited α] (arr : List α) (a b : Nat) : List α :=
  revRangeLoop b arr a (b - 1)

/-- partitionFunc forward scan: `for i <= j && less(arr[i], arr[a]): i++`. -/
def partAdvance {α : Type} [Inhabited α] (less : α → α → Bool) (arr : List α)
    (pa j : Nat) : Nat → Nat → Nat
  | 0, i => i
  | fuel + 1, i =>
    if i ≤ j ∧ less (lget arr i) (lget arr pa) then partAdvance less arr pa j fuel (i + 1)
    else i

/-- partitionFunc backward scan: `for i <= j && !less(arr[j], arr[a]): j--`. -/
def partRetreat {α : Type} [Inhabited α] (less : α → α → Bool) (arr : List α)
    (pa i : Nat) : Nat → Nat → Nat
  | 0, j => j
  | fuel + 1, j =>
    if i ≤ j ∧ ¬ less (lget arr j) (lget arr pa) then partRetreat less arr pa i fuel (j - 1)
    else j

/-- partitionFunc main exchange loop. -/
def partLoop {α : Type} [Inhabited α] (less : α → α → Bool) (a : Nat) :
    Nat → List α → Nat → Nat → List α × Nat
  | 0, arr, _, j => (arr, j)
  | fuel + 1, arr, i, j =>
    let i1 := partAdvance less arr a j (j + 2) i
    let j1 := partRetreat less arr a i1 (j + 2) j
    if i1 > j1 then (arr, j1)
    else partLoop less a fuel (lswap arr i1 j1) (i1 + 1) (j1 - 1)

/-- partitionFunc: Hoare partition around `arr[pivot]`, reporting the final
pivot position and whether the interval was already partitioned. -/
def goPartition {α : Type} [Inhabited α] (less : α → α → Bool) (arr0 : List α)
    (a b pivot : Nat) : List α × Nat × Bool :=
  let arr := lswap arr0 a pivot
  let i0 := a + 1
  let j0 := b - 1
  let i1 := partAdvance less arr a j0 (j0 + 2) i0
  let j1 := partRetreat less arr a i1 (j0 + 2) j0
  if i1 > j1 then (lswap arr j1 a, j1, true)
  else
    let r := partLoop less a (b + 1) (lswap arr i1 j1) (i1 + 1) (j1 - 1)
    (lswap r.1 r.2 a, r.2, false)

/-- partitionEqualFunc forward scan: `for i <= j && !less(arr[a], arr[i]): i++`. -/
def partEqAdvance {α : Type} [Inhabited α] (less : α → α → Bool) (arr : List α)
    (pa j : Nat) : Nat → Nat → Nat
  | 0, i => i
  | fuel + 1, i =>
    if i ≤ j ∧ ¬ less (lget arr pa) (lget arr i) then partEqAdvance less arr pa j fuel (i + 1)
    else i

/-- partitionEqualFunc backward scan: `for i <= j && less(arr[a], arr[j]): j--`. -/
def partEqRetreat {α : Type} [Inhabited α] (less : α → α → Bool) (arr : List α)
    (pa i : Nat) : Nat → Nat → Nat
  | 0, j => j
  | fuel + 1, j =>
    if i ≤ j ∧ less (lget arr pa) (lget arr j) then partEqRetreat less arr pa i fuel (j - 1)
    else j

/-- partitionEqualFunc main loop. -/
def partEqLoop {α : Type} [Inhabited α] (less : α → α → Bool) (a : Nat) :
    Nat → List α → Nat → Nat → List α × Nat
  | 0, arr, i, _ => (arr, i)
  | fuel + 1, arr, i, j =>
    let i1 := partEqAdvance less arr a j (j + 2) i
    let j1 := partEqRetreat less arr a i1 (j + 2) j
    if i1 > j1 then (arr, i1)
    else partEqLoop less a fuel (lswap arr i1 j1) (i1 + 1) (j1 - 1)

/-- partitionEqualFunc: move elements equal to the pivot to the front,
returning the first index past them. -/
def goPartitionEqual {α : Type} [Inhabited α] (less : α → α → Bool) (arr0 : List α)
    (a b pivot : Nat) : List α × Nat :=
  partEqLoop less a (b + 1) (lswap arr0 a pivot) (a + 1) (b - 1)

/-- The scan loop of the partial insertion sort:
`for i < b && !less(arr[i], arr[i-1]): i++`. -/
def pisAdvance {α : Type} [Inhabited α] (less : α → α → Bool) (arr : List α)
    (b : Nat) : Nat → Nat → Nat
  | 0, i => i
  | fuel + 1, i =>
    if i < b ∧ ¬ less (lget arr i) (lget arr (i - 1)) then pisAdvance less arr b fuel (i + 1)
    else i

/-- Shift the out-of-order element left while it is smaller. -/
def pisShiftLeft {α : Type} [Inhabited α] (less : α → α → Bool) (a : Nat) :
    Nat → List α → Nat → List α
  | 0, arr, _ => arr
  | fuel + 1, arr, j =>
    if a + 1 ≤ j then
      if ¬ less (lget arr j) (lget arr (j - 1)) then arr
      else pisShiftLeft less a fuel (lswap arr j (j - 1)) (j - 1)
    else arr

/-- Shift right while the next pair is out of order. -/
def pisShiftRight {α : Type} [Inhabited α] (less : α → α → Bool) (b : Nat) :
    Nat → List α → Nat → List α
  | 0, arr, _ => arr
  | fuel + 1, arr, j =>
    if j < b then
      if ¬ less (lget arr j) (lget arr (j - 1)) then arr
      else pisShiftRight less b fuel (lswap arr j (j - 1)) (j + 1)
    else arr

/-- The body of partialInsertionSortFunc: at most `maxSteps = 5` adjacent
inversions are repaired; intervals shorter than `shortestShifting = 50` bail
out after the first repair attempt. -/
def partInsSortSteps {α : Type} [Inhabited α] (less : α → α → Bool) (a b : Nat) :
    Nat → List α → Nat → List α × Bool
  | 0, arr, _ => (arr, false)
  | fuel + 1, arr, i =>
    let i1 := pisAdvance less arr b (b + 1) i
    if i1 = b then (arr, true)
    else if b - a < 50 then (arr, false)
    else
      let arr1 := lswap arr i1 (i1 - 1)
      let arr2 := if i1 - a ≥ 2 then pisShiftLeft less a (i1 + 1) arr1 (i1 - 1) else arr1
      let arr3 := if b - i1 ≥ 2 then pisShiftRight less b (b + 1) arr2 (i1 + 1) else arr2
      partInsSortSteps less a b fuel arr3 i1

/-- partialInsertionSortFunc. -/
def partInsSort {α : Type} [Inhabited α] (less : α → α → Bool) (arr : List α)
    (a b : Nat) : List α × Bool :=
  partInsSortSteps less a b 5 arr (a + 1)

/-- pdqsortFunc (sort/zsortfunc.go): the iterative driver loop, with the
recursion (and the loop's own `continue`) fueled. -/
def pdqsortRec {α : Type} [Inhabited α] (less : α → α → Bool) :
    Nat → List α → Nat → Nat → Nat → Bool → Bool → List α
  | 0, arr, _, _, _, _, _ => arr
  | fuel + 1, arr, a, b, limit, wasBalanced, wasPartitioned =>
    if b - a ≤ 12 then goInsertionSort less arr a b
    else if limit = 0 then goHeapSort less arr a b
    else
      let arrL := if wasBalanced = false then breakPatterns arr a b else arr
      let limit1 := if wasBalanced = false then limit - 1 else limit
      let ph := choosePivot less arrL a b
      let arrR := if ph.2 = SortedHint.decreasing then reverseRange arrL a b else arrL
      let pivot := if ph.2 = SortedHint.decreasing then (b - 1) - (ph.1 - a) else ph.1
      let hint := if ph.2 = SortedHint.decreasing then SortedHint.increasing else ph.2
      let pis :=
        if wasBalanced ∧ wasPartitioned ∧ hint = SortedHint.increasing then
          partInsSort less arrR a b
        else (arrR, false)
      if pis.2 then pis.1
      else
        let arr2 := pis.1
        if 0 < a ∧ ¬ less (lget arr2 (a - 1)) (lget arr2 pivot) then
          let pe := goPartitionEqual less arr2 a b pivot
          pdqsortRec less fuel pe.1 pe.2 b limit1 wasBalanced wasPartitioned
        else
          let pr := goPartition less arr2 a b pivot
          let mid := pr.2.1
          let wasP := pr.2.2
          let wasB := decide ((b - a) / 8 ≤ min (mid - a) (b - mid))
          if mid - a < b - mid then
            let arr4 := pdqsortRec less fuel pr.1 a mid limit1 true true
            pdqsortRec less fuel arr4 (mid + 1) b limit1 wasB wasP
          else
            let arr4 := pdqsortRec less fuel pr.1 (mid + 1) b limit1 true true
            pdqsortRec less fuel arr4 a mid limit1 wasB wasP

/-- sort.Slice: `limit := bits.Len(uint(length)); pdqsort(0, length, limit)`. -/
def goSortSlice {α : Type} [Inhabited α] (less : α → α → Bool) (l : List α) : List α :=
  pdqsortRec less (l.length + goBitsLen l.length + 2) l 0 l.length (goBitsLen l.length)
    true true

/-!
### multiclassNMS (ddddocr.go lines 1634-1706, claims C2, C3, C4)

The detection record, threshold filter, center-to-corner conversion with
clipping, score-descending `sort.Slice`, and the greedy suppression pass with
its `used` flags.  Detection(…) calls it with `nmsThr = 0.45`,
`scoreThr = 0.1` (line 871).
-/

/-- A surviving detection: box and score (`type detection struct`). -/
structure Det where
  box : BBox
  score : ℚ
  deriving DecidableEq, Repr, Inhabited

/-- The class-score maximum (`maxClassScore := 0; for j := 5; ...`). -/
def maxClassScore (pred : List ℚ) : ℚ :=
  (pred.drop 5).foldl (fun m v => if m < v then v else m) 0

/-- A row's score: objectness times maximum class score. -/
def rowScore (pred : List ℚ) : ℚ := pred.getD 4 0 * maxClassScore pred

/-- The center-to-corner conversion and clipping step
(ddddocr.go lines 1656-1673): divide by the letterbox ratio, truncate to int,
clip `x1, y1` below at 0 and `x2, y2` above at `origW, origH`. -/
def detOfPred (pred : List ℚ) (ratio : ℚ) (origW origH : Int) : BBox :=
  let cx := pred.getD 0 0
  let cy := pred.getD 1 0
  let w := pred.getD 2 0
  let h := pred.getD 3 0
  let x1 := ratTrunc ((cx - w / 2) / ratio)
  let y1 := ratTrunc ((cy - h / 2) / ratio)
  let x2 := ratTrunc ((cx + w / 2) / ratio)
  let y2 := ratTrunc ((cy + h / 2) / ratio)
  ⟨if x1 < 0 then 0 else x1,
   if y1 < 0 then 0 else y1,
   if x2 > origW then origW else x2,
   if y2 > origH then origH else y2⟩

/-- The threshold filter building `dets` in row order
(ddddocr.go lines 1642-1679). -/
def survivors (preds : List (List ℚ)) (ratio : ℚ) (origW origH : Int)
    (scoreThr : ℚ) : List Det :=
  preds.filterMap fun pred =>
    if rowScore pred < scoreThr then none
    else some ⟨detOfPred pred ratio origW origH, rowScore pred⟩

/-- The sort.Slice comparator (line 1682): `dets[i].score > dets[j].score`. -/
def detLess (x y : Det) : Bool := decide (y.score < x.score)

/-- The inner suppression loop (`for j := i + 1; ...`): mark every later
unconsumed detection whose IoU with the accepted box exceeds the threshold.
The `used` flags are a function from index to Bool. -/
def nmsMark (dets : List Det) (thr : ℚ) (bi : BBox) :
    Nat → Nat → (Nat → Bool) → (Nat → Bool)
  | 0, _, used => used
  | fuel + 1, j, used =>
    if used j then nmsMark dets thr bi fuel (j + 1) used
    else if thr < computeIoU bi (lget dets j).box then
      nmsMark dets thr bi fuel (j + 1) (fun k => if k = j then true else used k)
    else nmsMark dets thr bi fuel (j + 1) used

/-- The outer suppression loop: accept the next unconsumed detection, then
mark the rest. -/
def nmsAccept (dets : List Det) (thr : ℚ) :
    Nat → Nat → (Nat → Bool) → List BBox
  | 0, _, _ => []
  | fuel + 1, i, used =>
    if used i then nmsAccept dets thr fuel (i + 1) used
    else
      (lget dets i).box ::
        nmsAccept dets thr fuel (i + 1)
          (nmsMark dets thr (lget dets i).box fuel (i + 1) used)

/-- The greedy suppression pass (ddddocr.go lines 1685-1705). -/
def nmsGreedy (dets : List Det) (thr : ℚ) : List BBox :=
  nmsAccept dets thr dets.length 0 fun _ => false

/-- The sorted detections handed to the greedy pass (line 1681). -/
def sortedSurvivors (preds : List (List ℚ)) (ratio : ℚ) (origW origH : Int)
    (scoreThr : ℚ) : List Det :=
  goSortSlice detLess (survivors preds ratio origW origH scoreThr)

/-- multiclassNMS (ddddocr.go lines 1634-1706). -/
def multiclassNMS (preds : List (List ℚ)) (ratio : ℚ) (origW origH : Int)
    (nmsThr scoreThr : ℚ) : List BBox :=
  nmsGreedy (sortedSurvivors preds ratio origW origH scoreThr) nmsThr

/-!
### Insertion-sort characterization

For slices of at most 12 elements pdqsort reduces to its insertion sort; the
array loops are bridged to a list-level fold of a rightward "bubble" insert,
whose sortedness and tie-stability are then proved.
-/

/-- The element `x` bubbling from the right end into the reversed prefix. -/
def bubbleRev {α : Type} (less : α → α → Bool) (x : α) : List α → List α
  | [] => [x]
  | y :: rev => if less x y then y :: bubbleRev less x rev else x :: y :: rev

/-- The inner insertion-sort loop at the list level: insert `x` into the
prefix `acc`, scanning from the right. -/
def bubble {α : Type} (less : α → α → Bool) (acc : List α) (x : α) : List α :=
  (bubbleRev less x acc.reverse).reverse

/-- The whole insertion sort at the list level. -/
def goISortList {α : Type} (less : α → α → Bool) (l : List α) : List α :=
  l.foldl (bubble less) []

theorem bubbleRev_length {α : Type} (less : α → α → Bool) (x : α) :
    ∀ rev : List α, (bubbleRev less x rev).length = rev.length + 1
  | [] => rfl
  | y :: rev => by
    rw [bubbleRev]
    by_cases h : less x y
    · simp [h, bubbleRev_length less x rev]
    · simp [h]

theorem bubble_length {α : Type} (less : α → α → Bool) (acc : List α) (x : α) :
    (bubble less acc x).length = acc.length + 1 := by
  rw [bubble]
  simp [bubbleRev_length]

theorem getD_append_len {α : Type} (us w : List α) (k : Nat) (d : α) :
    (us ++ w).getD (us.length + k) d = w.getD k d := by
  rw [List.getD_append_right us w d (us.length + k) (by omega)]
  congr 1
  omega

theorem set_append_len {α : Type} (us w : List α) (k : Nat) (z : α) :
    (us ++ w).set (us.length + k) z = us ++ w.set k z := by
  rw [List.set_append, if_neg (by omega)]
  congr 2
  omega

theorem lswap_adjacent {α : Type} [Inhabited α] (us : List α) (y x : α) (v : List α) :
    lswap (us ++ y :: x :: v) (us.length + 1) us.length = us ++ x :: y :: v := by
  unfold lswap lget
  have h0 : (us ++ y :: x :: v).getD us.length default = y := by
    have := getD_append_len us (y :: x :: v) 0 (default : α)
    simpa using this
  have h1 : (us ++ y :: x :: v).getD (us.length + 1) default = x := by
    have := getD_append_len us (y :: x :: v) 1 (default : α)
    simpa using this
  rw [h0, h1]
  rw [set_append_len us (y :: x :: v) 1 y]
  show ((us ++ y :: y :: v).set (us.length + 0) x) = us ++ x :: y :: v
  rw [set_append_len us (y :: y :: v) 0 x]
  rfl

theorem isortInner_bridge {α : Type} [Inhabited α] (less : α → α → Bool) :
    ∀ (u : List α) (x : α) (v : List α),
      isortInner less 0 (u ++ x :: v) u.length = bubble less u x ++ v := by
  intro u
  induction u using List.reverseRecOn with
  | nil =>
    intro x v
    simp [isortInner, bubble, bubbleRev]
  | append_singleton us y ih =>
    intro x v
    have hlen : (us ++ [y]).length = us.length + 1 := by simp
    rw [hlen]
    have harr : (us ++ [y]) ++ x :: v = us ++ y :: x :: v := by simp
    rw [harr, isortInner]
    have hx : lget (us ++ y :: x :: v) (us.length + 1) = x := by
      unfold lget
      have := getD_append_len us (y :: x :: v) 1 (default : α)
      simpa using this
    have hy : lget (us ++ y :: x :: v) us.length = y := by
      unfold lget
      have := getD_append_len us (y :: x :: v) 0 (default : α)
      simpa using this
    rw [hx, hy]
    by_cases h : less x y
    · rw [if_pos ⟨Nat.succ_pos _, h⟩, lswap_adjacent, ih x (y :: v)]
      have : bubble less (us ++ [y]) x = bubble less us x ++ [y] := by
        unfold bubble
        rw [List.reverse_append]
        show (bubbleRev less x (y :: us.reverse)).reverse = _
        rw [bubbleRev, if_pos h]
        simp
      rw [this]
      simp
    · rw [if_neg (by rintro ⟨_, hc⟩; exact h hc)]
      have : bubble less (us ++ [y]) x = us ++ [y, x] := by
        unfold bubble
        rw [List.reverse_append]
        show (bubbleRev less x (y :: us.reverse)).reverse = _
        rw [bubbleRev, if_neg h]
        simp
      rw [this]
      simp

theorem isortOuter_bridge {α : Type} [Inhabited α] (less : α → α → Bool) :
    ∀ (fuel : Nat) (p rest : List α), rest.length ≤ fuel →
      isortOuter less 0 (p.length + rest.length) fuel (p ++ rest) p.length =
        rest.foldl (bubble less) p := by
  intro fuel
  induction fuel with
  | zero =>
    intro p rest hl
    have : rest = [] := List.length_eq_zero.1 (by omega)
    subst this
    simp [isortOuter]
  | succ n ih =>
    intro p rest hl
    cases rest with
    | nil =>
      rw [isortOuter, if_neg (by simp)]
      simp
    | cons x rest' =>
      rw [isortOuter, if_pos (by simp), isortInner_bridge less p x rest']
      have hlen : p.length + 1 = (bubble less p x).length := (bubble_length less p x).symm
      have hb : p.length + (x :: rest').length =
          (bubble less p x).length + rest'.length := by
        rw [← hlen]; simp; omega
      rw [hb, hlen, ih (bubble less p x) rest' (by simp at hl; omega), List.foldl_cons]

theorem goInsertionSort_eq_list {α : Type} [Inhabited α] (less : α → α → Bool) :
    ∀ l : List α, goInsertionSort less l 0 l.length = goISortList less l := by
  intro l
  cases l with
  | nil => rfl
  | cons x rest =>
    show isortOuter less 0 (x :: rest).length (x :: rest).length (x :: rest) 1 = _
    have h1 : (x :: rest).length = ([x] : List α).length + rest.length := by simp; omega
    have hx : (x :: rest : List α) = [x] ++ rest := rfl
    rw [h1, hx, show (1 : Nat) = ([x] : List α).length from rfl]
    rw [isortOuter_bridge less (([x] : List α).length + rest.length) [x] rest (by simp)]
    rfl

theorem pdqsortRec_small {α : Type} [Inhabited α] (less : α → α → Bool)
    (fuel : Nat) (arr : List α) (a b limit : Nat) (wb wp : Bool) (h : b - a ≤ 12) :
    pdqsortRec less (fuel + 1) arr a b limit wb wp = goInsertionSort less arr a b := by
  rw [pdqsortRec, if_pos h]

theorem goSortSlice_small {α : Type} [Inhabited α] (less : α → α → Bool)
    (l : List α) (h : l.length ≤ 12) :
    goSortSlice less l = goISortList less l := by
  rw [goSortSlice]
  rw [show l.length + goBitsLen l.length + 2 =
    (l.length + goBitsLen l.length + 1) + 1 from rfl]
  rw [pdqsortRec_small less _ l 0 l.length _ true true (by omega)]
  exact goInsertionSort_eq_list less l

theorem mem_bubbleRev {α : Type} (less : α → α → Bool) (x : α) :
    ∀ (rev : List α) (z : α), z ∈ bubbleRev less x rev ↔ z = x ∨ z ∈ rev := by
  intro rev
  induction rev with
  | nil => intro z; simp [bubbleRev]
  | cons y rev ih =>
    intro z
    rw [bubbleRev]
    by_cases h : less x y
    · rw [if_pos h]
      simp only [List.mem_cons, ih]
      tauto
    · rw [if_neg h]
      simp only [List.mem_cons]

theorem bubbleRev_pairwise {α : Type} (f : α → ℚ) (x : α) :
    ∀ (rev : List α), rev.Pairwise (fun u v => f u ≤ f v) →
      (bubbleRev (fun u v => decide (f v < f u)) x rev).Pairwise
        (fun u v => f u ≤ f v) := by
  intro rev
  induction rev with
  | nil =>
    intro _
    simp [bubbleRev]
  | cons y rev ih =>
    intro h
    rw [List.pairwise_cons] at h
    obtain ⟨hy, hrev⟩ := h
    rw [bubbleRev]
    by_cases hxy : f y < f x
    · rw [if_pos (by simpa using hxy)]
      rw [List.pairwise_cons]
      refine ⟨?_, ih hrev⟩
      intro z hz
      rcases (mem_bubbleRev _ x rev z).1 hz with rfl | hzr
      · exact le_of_lt hxy
      · exact hy z hzr
    · rw [if_neg (by simpa using hxy)]
      rw [List.pairwise_cons]
      refine ⟨?_, List.pairwise_cons.2 ⟨hy, hrev⟩⟩
      intro z hz
      rcases List.mem_cons.1 hz with rfl | hzr
      · exact not_lt.1 hxy
      · exact le_trans (not_lt.1 hxy) (hy z hzr)

theorem bubble_pairwise {α : Type} (f : α → ℚ) (acc : List α) (x : α)
    (h : acc.Pairwise fun u v => f v ≤ f u) :
    (bubble (fun u v => decide (f v < f u)) acc x).Pairwise fun u v => f v ≤ f u := by
  rw [bubble, ← List.pairwise_reverse]
  simp only [List.reverse_reverse]
  refine bubbleRev_pairwise f x acc.reverse ?_
  rw [List.pairwise_reverse]
  exact h

theorem bubbleRev_filter {α : Type} (f : α → ℚ) (x : α) (s : ℚ) :
    ∀ (rev : List α),
      (bubbleRev (fun u v => decide (f v < f u)) x rev).filter (fun d => decide (f d = s)) =
        (if f x = s then [x] else []) ++ rev.filter (fun d => decide (f d = s)) := by
  intro rev
  induction rev with
  | nil =>
    rw [bubbleRev]
    rw [List.filter_cons]
    by_cases h : f x = s
    · rw [if_pos (by simpa using h), if_pos h]
      rfl
    · rw [if_neg (by simpa using h), if_neg h]
      rfl
  | cons y rev ih =>
    rw [bubbleRev]
    by_cases hxy : f y < f x
    · rw [if_pos (by simpa using hxy), List.filter_cons, ih]
      by_cases hys : f y = s
      · have hxs : ¬ f x = s := by
          intro hc
          rw [hc] at hxy
          rw [hys] at hxy
          exact lt_irrefl s hxy
        simp [hys, hxs]
      · simp [hys]
    · rw [if_neg (by simpa using hxy), List.filter_cons, List.filter_cons]
      by_cases hxs : f x = s
      · simp [hxs]
      · simp [hxs]

theorem bubble_filter {α : Type} (f : α → ℚ) (acc : List α) (x : α) (s : ℚ) :
    (bubble (fun u v => decide (f v < f u)) acc x).filter (fun d => decide (f d = s)) =
      acc.filter (fun d => decide (f d = s)) ++ (if f x = s then [x] else []) := by
  rw [bubble, List.filter_reverse, bubbleRev_filter f x s acc.reverse,
    List.reverse_append, List.filter_reverse, List.reverse_reverse]
  congr 1
  by_cases h : f x = s
  · simp [h]
  · simp [h]

theorem goISortList_pairwise {α : Type} (f : α → ℚ) (l : List α) :
    (goISortList (fun u v => decide (f v < f u)) l).Pairwise fun u v => f v ≤ f u := by
  rw [goISortList]
  suffices h : ∀ acc : List α, (acc.Pairwise fun u v => f v ≤ f u) →
      (l.foldl (bubble fun u v => decide (f v < f u)) acc).Pairwise
        fun u v => f v ≤ f u by
    exact h [] (by simp)
  induction l with
  | nil => intro acc hacc; simpa using hacc
  | cons x rest ih =>
    intro acc hacc
    rw [List.foldl_cons]
    exact ih _ (bubble_pairwise f acc x hacc)

theorem goISortList_filter {α : Type} (f : α → ℚ) (l : List α) (s : ℚ) :
    (goISortList (fun u v => decide (f v < f u)) l).filter (fun d => decide (f d = s)) =
      l.filter fun d => decide (f d = s) := by
  rw [goISortList]
  suffices h : ∀ acc : List α,
      (l.foldl (bubble fun u v => decide (f v < f u)) acc).filter
          (fun d => decide (f d = s)) =
        acc.filter (fun d => decide (f d = s)) ++ l.filter (fun d => decide (f d = s)) by
    simpa using h []
  induction l with
  | nil => intro acc; simp
  | cons x rest ih =>
    intro acc
    rw [List.foldl_cons, ih (bubble (fun u v => decide (f v < f u)) acc x),
      bubble_filter f acc x s, List.filter_cons]
    by_cases h : f x = s
    · rw [if_pos h, if_pos (by simpa using h)]
      simp
    · rw [if_neg h, if_neg (by simpa using h)]
      simp

/-- C2 (amended): when at most 12 detections survive the score threshold,
`sort.Slice`'s pdqsort reduces to its insertion sort, so the detections handed
to the greedy pass are sorted by score descending and equal-score detections
keep their original relative order (the filter at every score value is
unchanged).  With 13 or more detections the sort is not stable. -/
theorem C2_sort_descending_stable_small (preds : List (List ℚ)) (ratio : ℚ)
    (origW origH : Int) (scoreThr : ℚ)
    (hlen : (survivors preds ratio origW origH scoreThr).length ≤ 12) :
    (sortedSurvivors preds ratio origW origH scoreThr).Pairwise
      (fun x y => y.score ≤ x.score) ∧
    ∀ s : ℚ,
      (sortedSurvivors preds ratio origW origH scoreThr).filter
          (fun d => decide (d.score = s)) =
        (survivors preds ratio origW origH scoreThr).filter
          fun d => decide (d.score = s) := by
  have hdl : detLess = fun u v : Det => decide (Det.score v < Det.score u) := rfl
  rw [sortedSurvivors, hdl, goSortSlice_small _ _ hlen]
  exact ⟨goISortList_pairwise Det.score _,
    fun s => goISortList_filter Det.score _ s⟩

/-- The 13 synthetic grid-decode rows of the C2 counterexample: distinct
boxes, scores 1 except the second row's 9. -/
def preds13 : List (List ℚ) :=
  [[10, 50, 2, 2, 1, 1],
   [20, 50, 2, 2, 1, 9],
   [30, 50, 2, 2, 1, 1],
   [40, 50, 2, 2, 1, 1],
   [50, 50, 2, 2, 1, 1],
   [60, 50, 2, 2, 1, 1],
   [70, 50, 2, 2, 1, 1],
   [80, 50, 2, 2, 1, 1],
   [90, 50, 2, 2, 1, 1],
   [100, 50, 2, 2, 1, 1],
   [110, 50, 2, 2, 1, 1],
   [120, 50, 2, 2, 1, 1],
   [130, 50, 2, 2, 1, 1]]

/-- The surviving detections of `preds13`, as literals. -/
def dets13 : List Det :=
  [⟨⟨9, 49, 11, 51⟩, 1⟩, ⟨⟨19, 49, 21, 51⟩, 9⟩, ⟨⟨29, 49, 31, 51⟩, 1⟩,
   ⟨⟨39, 49, 41, 51⟩, 1⟩, ⟨⟨49, 49, 51, 51⟩, 1⟩, ⟨⟨59, 49, 61, 51⟩, 1⟩,
   ⟨⟨69, 49, 71, 51⟩, 1⟩, ⟨⟨79, 49, 81, 51⟩, 1⟩, ⟨⟨89, 49, 91, 51⟩, 1⟩,
   ⟨⟨99, 49, 101, 51⟩, 1⟩, ⟨⟨109, 49, 111, 51⟩, 1⟩, ⟨⟨119, 49, 121, 51⟩, 1⟩,
   ⟨⟨129, 49, 131, 51⟩, 1⟩]

theorem survivors_preds13 : survivors preds13 1 1000 1000 (1 / 10) = dets13 := by
  simp only [preds13, dets13, survivors, List.filterMap, rowScore, maxClassScore,
    detOfPred]
  norm_num [ratTrunc]

set_option maxRecDepth 40000 in
set_option maxHeartbeats 2000000 in
/-- Counterexample to C2 as stated: on 13 surviving detections (scores
`[1, 9, 1, …, 1]`), Go's pdqsort no longer reduces to insertion sort, and the
twelve score-1 detections leave the sort in a different relative order than
they entered: the claim's "ties keep their original order" fails. -/
theorem C2_counterexample_unstable :
    ((sortedSurvivors preds13 1 1000 1000 (1 / 10)).filter
        (fun d => decide (d.score = 1))).map Det.box ≠
      ((survivors preds13 1 1000 1000 (1 / 10)).filter
        (fun d => decide (d.score = 1))).map Det.box := by
  rw [sortedSurvivors, survivors_preds13]
  decide

/-- Two synthetic rows for the C2 witness. -/
def preds2 : List (List ℚ) := [[10, 50, 2, 2, 1, 1], [20, 50, 2, 2, 1, 9]]

theorem survivors_preds2 :
    survivors preds2 1 1000 1000 (1 / 10) =
      [⟨⟨9, 49, 11, 51⟩, 1⟩, ⟨⟨19, 49, 21, 51⟩, 9⟩] := by
  simp only [preds2, survivors, List.filterMap, rowScore, maxClassScore, detOfPred]
  norm_num [ratTrunc]

/-- Witness for C2 at two surviving detections. -/
theorem C2_sort_descending_stable_small_witness :
    (survivors preds2 1 1000 1000 (1 / 10)).length ≤ 12 ∧
    ((sortedSurvivors preds2 1 1000 1000 (1 / 10)).Pairwise
        (fun x y => y.score ≤ x.score) ∧
      ∀ s : ℚ,
        (sortedSurvivors preds2 1 1000 1000 (1 / 10)).filter
            (fun d => decide (d.score = s)) =
          (survivors preds2 1 1000 1000 (1 / 10)).filter
            fun d => decide (d.score = s)) :=
  ⟨by rw [survivors_preds2]; decide,
   C2_sort_descending_stable_small preds2 1 1000 1000 (1 / 10)
     (by rw [survivors_preds2]; decide)⟩

/-!
### The greedy suppression pass keeps no overlapping pair (claim C4)
-/

theorem nmsMark_out (dets : List Det) (thr : ℚ) (b : BBox) :
    ∀ (fuel j : Nat) (used : Nat → Bool) (k : Nat), k < j ∨ j + fuel ≤ k →
      nmsMark dets thr b fuel j used k = used k := by
  intro fuel
  induction fuel with
  | zero => intro j used k _; rfl
  | succ n ih =>
    intro j used k hk
    rw [nmsMark]
    have hkj : k ≠ j := by omega
    by_cases h1 : used j
    · rw [if_pos h1]
      exact ih (j + 1) used k (by omega)
    · rw [if_neg h1]
      by_cases h2 : thr < computeIoU b (lget dets j).box
      · rw [if_pos h2, ih (j + 1) _ k (by omega)]
        simp [hkj]
      · rw [if_neg h2]
        exact ih (j + 1) used k (by omega)

theorem nmsMark_in (dets : List Det) (thr : ℚ) (b : BBox) :
    ∀ (fuel j : Nat) (used : Nat → Bool) (k : Nat), j ≤ k → k < j + fuel →
      nmsMark dets thr b fuel j used k =
        (used k || decide (thr < computeIoU b (lget dets k).box)) := by
  intro fuel
  induction fuel with
  | zero => intro j used k h1 h2; omega
  | succ n ih =>
    intro j used k h1 h2
    rw [nmsMark]
    by_cases hkj : k = j
    · subst hkj
      by_cases h3 : used k
      · rw [if_pos h3, nmsMark_out dets thr b n (k + 1) used k (by omega), h3]
        simp
      · rw [if_neg h3]
        by_cases h4 : thr < computeIoU b (lget dets k).box
        · rw [if_pos h4, nmsMark_out dets thr b n (k + 1) _ k (by omega)]
          simp [h3, h4]
        · rw [if_neg h4, nmsMark_out dets thr b n (k + 1) used k (by omega)]
          simp [h3, h4]
    · have hk1 : j + 1 ≤ k := by omega
      by_cases h3 : used j
      · rw [if_pos h3]
        exact ih (j + 1) used k hk1 (by omega)
      · rw [if_neg h3]
        by_cases h4 : thr < computeIoU b (lget dets j).box
        · rw [if_pos h4, ih (j + 1) _ k hk1 (by omega)]
          simp [hkj]
        · rw [if_neg h4]
          exact ih (j + 1) used k hk1 (by omega)

theorem nmsAccept_mem (dets : List Det) (thr : ℚ) :
    ∀ (fuel i : Nat) (used : Nat → Bool) (c : BBox),
      c ∈ nmsAccept dets thr fuel i used →
        ∃ k, i ≤ k ∧ k < i + fuel ∧ used k = false ∧ c = (lget dets k).box := by
  intro fuel
  induction fuel with
  | zero => intro i used c hc; simp [nmsAccept] at hc
  | succ n ih =>
    intro i used c hc
    rw [nmsAccept] at hc
    by_cases h1 : used i
    · rw [if_pos h1] at hc
      obtain ⟨k, hk1, hk2, hk3, hk4⟩ := ih (i + 1) used c hc
      exact ⟨k, by omega, by omega, hk3, hk4⟩
    · rw [if_neg h1] at hc
      rcases List.mem_cons.1 hc with rfl | hc'
      · exact ⟨i, le_refl i, by omega, by simpa using h1, rfl⟩
      · obtain ⟨k, hk1, hk2, hk3, hk4⟩ := ih (i + 1) _ c hc'
        have hmark := nmsMark_in dets thr (lget dets i).box n (i + 1) used k hk1
          (by omega)
        rw [hmark] at hk3
        have : used k = false := by
          cases hused : used k
          · rfl
          · rw [hused] at hk3; simp at hk3
        exact ⟨k, by omega, by omega, this, hk4⟩

theorem nmsAccept_pairwise (dets : List Det) (thr : ℚ) :
    ∀ (fuel i : Nat) (used : Nat → Bool),
      (nmsAccept dets thr fuel i used).Pairwise
        fun b c => computeIoU b c ≤ thr ∧ computeIoU c b ≤ thr := by
  intro fuel
  induction fuel with
  | zero => intro i used; simp [nmsAccept]
  | succ n ih =>
    intro i used
    rw [nmsAccept]
    by_cases h1 : used i
    · rw [if_pos h1]
      exact ih (i + 1) used
    · rw [if_neg h1]
      rw [List.pairwise_cons]
      refine ⟨?_, ih (i + 1) _⟩
      intro c hc
      obtain ⟨k, hk1, hk2, hk3, hk4⟩ := nmsAccept_mem dets thr n (i + 1) _ c hc
      have hmark := nmsMark_in dets thr (lget dets i).box n (i + 1) used k hk1 hk2
      rw [hmark] at hk3
      have hiou : ¬ thr < computeIoU (lget dets i).box (lget dets k).box := by
        cases hused : used k
        · rw [hused] at hk3
          simpa using hk3
        · rw [hused] at hk3; simp at hk3
      subst hk4
      exact ⟨not_lt.1 hiou, by rw [computeIoU_comm]; exact not_lt.1 hiou⟩

/-- C4: in the box list returned by the greedy suppression pass, no two
distinct boxes have IoU strictly greater than the `nmsThreshold` parameter
(0.45 in the Detection pipeline): the list is pairwise non-overlapping in
both argument orders. -/
theorem C4_nms_no_overlapping_pair (preds : List (List ℚ)) (ratio : ℚ)
    (origW origH : Int) (nmsThr scoreThr : ℚ) :
    (multiclassNMS preds ratio origW origH nmsThr scoreThr).Pairwise
      fun b c => computeIoU b c ≤ nmsThr ∧ computeIoU c b ≤ nmsThr := by
  rw [multiclassNMS, nmsGreedy]
  exact nmsAccept_pairwise _ nmsThr _ 0 _

/-- C3 (amended): the converted, clipped box satisfies `x1 ≤ x2 ∧ y1 ≤ y2`
provided the row's width and height are nonnegative, the letterbox ratio is
positive, the original dimensions are nonnegative, and the truncated corners
are not entirely outside the image (`x2`-corner ≥ 0, `x1`-corner ≤ origW, and
likewise for y).  A box entirely outside the image escapes the one-sided
clipping and violates the invariant. -/
theorem C3_clip_ordered (pred : List ℚ) (ratio : ℚ) (origW origH : Int)
    (hr : 0 < ratio) (hw : 0 ≤ pred.getD 2 0) (hh : 0 ≤ pred.getD 3 0)
    (hW : 0 ≤ origW) (hH : 0 ≤ origH)
    (hx2 : 0 ≤ ratTrunc ((pred.getD 0 0 + pred.getD 2 0 / 2) / ratio))
    (hx1 : ratTrunc ((pred.getD 0 0 - pred.getD 2 0 / 2) / ratio) ≤ origW)
    (hy2 : 0 ≤ ratTrunc ((pred.getD 1 0 + pred.getD 3 0 / 2) / ratio))
    (hy1 : ratTrunc ((pred.getD 1 0 - pred.getD 3 0 / 2) / ratio) ≤ origH) :
    (detOfPred pred ratio origW origH).X1 ≤ (detOfPred pred ratio origW origH).X2 ∧
    (detOfPred pred ratio origW origH).Y1 ≤ (detOfPred pred ratio origW origH).Y2 := by
  have hxm : ratTrunc ((pred.getD 0 0 - pred.getD 2 0 / 2) / ratio) ≤
      ratTrunc ((pred.getD 0 0 + pred.getD 2 0 / 2) / ratio) := by
    refine ratTrunc_mono ?_
    rw [div_le_div_right hr]
    linarith
  have hym : ratTrunc ((pred.getD 1 0 - pred.getD 3 0 / 2) / ratio) ≤
      ratTrunc ((pred.getD 1 0 + pred.getD 3 0 / 2) / ratio) := by
    refine ratTrunc_mono ?_
    rw [div_le_div_right hr]
    linarith
  dsimp only [detOfPred]
  constructor
  · by_cases c1 : ratTrunc ((pred.getD 0 0 - pred.getD 2 0 / 2) / ratio) < 0 <;>
      by_cases c2 : ratTrunc ((pred.getD 0 0 + pred.getD 2 0 / 2) / ratio) > origW <;>
      simp only [c1, c2, if_pos, if_neg, if_true, if_false] <;> omega
  · by_cases c1 : ratTrunc ((pred.getD 1 0 - pred.getD 3 0 / 2) / ratio) < 0 <;>
      by_cases c2 : ratTrunc ((pred.getD 1 0 + pred.getD 3 0 / 2) / ratio) > origH <;>
      simp only [c1, c2, if_pos, if_neg, if_true, if_false] <;> omega

theorem survivors_outside :
    survivors [[-100, 50, 10, 10, 1, 1]] 1 100 100 (1 / 10) =
      [⟨⟨0, 45, -95, 55⟩, 1⟩] := by
  simp only [survivors, List.filterMap, rowScore, maxClassScore, detOfPred]
  norm_num [ratTrunc]

/-- Counterexample to C3 as stated: a prediction row whose box lies entirely
left of the image (`cx = -100`, width 10, ratio 1, 100×100 image) passes the
score threshold, and the postprocessor returns the box `(0, 45, -95, 55)`:
`x1 = 0 > x2 = -95`, because `x1` is clipped below at 0 while the negative
`x2` is only clipped above at `origW`. -/
theorem C3_counterexample_outside_box :
    multiclassNMS [[-100, 50, 10, 10, 1, 1]] 1 100 100 (45 / 100) (1 / 10) =
      [⟨0, 45, -95, 55⟩] ∧
    ¬ ((⟨0, 45, -95, 55⟩ : BBox).X1 ≤ (⟨0, 45, -95, 55⟩ : BBox).X2) := by
  constructor
  · rw [multiclassNMS, sortedSurvivors, survivors_outside]
    decide
  · decide

/-- Witness for C3 at a row whose box overlaps the image. -/
theorem C3_clip_ordered_witness :
    (0 : ℚ) < 1 ∧ (0 : ℚ) ≤ [(50 : ℚ), 50, 10, 10, 1, 1].getD 2 0 ∧
    (0 ≤ ratTrunc ((([(50 : ℚ), 50, 10, 10, 1, 1].getD 0 0 +
        [(50 : ℚ), 50, 10, 10, 1, 1].getD 2 0 / 2) / 1))) ∧
    ((detOfPred [(50 : ℚ), 50, 10, 10, 1, 1] 1 100 100).X1 ≤
        (detOfPred [(50 : ℚ), 50, 10, 10, 1, 1] 1 100 100).X2 ∧
      (detOfPred [(50 : ℚ), 50, 10, 10, 1, 1] 1 100 100).Y1 ≤
        (detOfPred [(50 : ℚ), 50, 10, 10, 1, 1] 1 100 100).Y2) :=
  ⟨by norm_num, by norm_num,
   by norm_num [ratTrunc],
   C3_clip_ordered [(50 : ℚ), 50, 10, 10, 1, 1] 1 100 100 (by norm_num)
     (by norm_num) (by norm_num) (by norm_num) (by norm_num)
     (by norm_num [ratTrunc]) (by norm_num [ratTrunc])
     (by norm_num [ratTrunc]) (by norm_num [ratTrunc])⟩

end GoDdddocr
